import Mathlib

/-!
Verification of the SSZ compact multiproof machinery and oracle-report engine
of the risc0 Lido accounting oracle, as a shallow embedding in Lean.

Sources embedded (paths relative to the repository root):
* `crates/ssz-multiproofs/src/builder.rs`  (gindex arithmetic, binary-lex sort,
  descriptor construction, multiproof building)
* `crates/ssz-multiproofs/src/multiproof.rs` (stack-machine root computation,
  gindex iterator, value iterator)
* `crates/ssz-multiproofs/src/multiproof_builder.rs` (earlier revision with the
  recursive, pointer-checked root computation)
* `crates/core/src/generate_report.rs` (oracle engine)
* `crates/core/src/membership/mod.rs` (membership engine)
* `crates/gindices/src/lib.rs` (gindex formulas; the generated base constants
  are modelled from the beacon-state schema described in the spec)

Machine integers are modelled as `Nat`; `u64` wrap-around is written as an
explicit `% 2 ^ 64` where the code can overflow.  Rust panics (`expect`,
`assert_eq!`, out-of-bounds indexing) are modelled as a distinguished
`panicked` outcome; fallible code returns `Except`-style results.  Loops whose
iteration count is bounded by the 64-bit width of a gindex are written with an
explicit fuel of 64, matching the `u64` domain of the source.
-/

namespace LidoOracle

/-! ### Generalized-index arithmetic (builder.rs lines 242-248) -/

/-- `sibling` from builder.rs: `index ^ 1`. -/
def sibling (i : Nat) : Nat := i ^^^ 1

/-- `parent` from builder.rs: `index / 2`. -/
def parent (i : Nat) : Nat := i / 2

theorem xor_one_closed (n : Nat) : n ^^^ 1 = 2 * (n / 2) + (1 - n % 2) := by
  conv_lhs => rw [← Nat.bit_decide_mod_two_eq_one_shiftRight_one n]
  have h1 : (1 : Nat) = Nat.bit true 0 := rfl
  rw [h1, Nat.xor_bit, Nat.bit_val]
  rcases Nat.mod_two_eq_zero_or_one n with h | h <;>
    simp [h, Nat.shiftRight_one]

theorem sibling_closed (n : Nat) :
    sibling n = if n % 2 = 0 then n + 1 else n - 1 := by
  have h := xor_one_closed n
  have h2 := Nat.div_add_mod n 2
  unfold sibling
  rcases Nat.mod_two_eq_zero_or_one n with hm | hm <;> simp [hm] at h ⊢ <;> omega

theorem parent_sibling (n : Nat) : parent (sibling n) = parent n := by
  have h := sibling_closed n
  have h2 := Nat.div_add_mod n 2
  unfold parent
  rcases Nat.mod_two_eq_zero_or_one n with hm | hm <;> simp [hm] at h <;> rw [h] <;> omega

theorem sibling_ge_two {n : Nat} (h : 2 ≤ n) : 2 ≤ sibling n := by
  have hs := sibling_closed n
  rcases Nat.mod_two_eq_zero_or_one n with hm | hm <;> simp [hm] at hs <;> omega

theorem sibling_lt_two_pow {n k : Nat} (h : n < 2 ^ (k + 1)) (h2 : 2 ≤ n) :
    sibling n < 2 ^ (k + 1) := by
  have hs := sibling_closed n
  have h2' := Nat.div_add_mod n 2
  have hpow : 2 ^ (k + 1) = 2 * 2 ^ k := by rw [pow_succ]; ring
  rcases Nat.mod_two_eq_zero_or_one n with hm | hm <;> simp [hm] at hs <;> omega

/-! ### Fuel-driven loops

Iterations that halve a `u64` run at most 64 times; the loops below carry an
explicit fuel of 64, which is exact for the `u64` domain of the source. -/

/-- The loop of `get_path_indices` (builder.rs lines 214-223): push the focus,
then repeatedly move to the parent while the focus exceeds 1. -/
def pathGo : Nat → Nat → List Nat
  | _, 0 => [0]
  | _, 1 => [1]
  | 0, g => [g]
  | f + 1, g => g :: pathGo f (g / 2)

def pathList (g : Nat) : List Nat := pathGo 64 g

/-- `get_path_indices` from builder.rs: the chain with its last element
(the root) removed by `result.truncate(result.len() - 1)`. -/
def get_path_indices (g : Nat) : List Nat := (pathList g).dropLast

/-- The loop of `get_branch_indices` (builder.rs lines 203-212): starting from
a focus, push it, and while it is `> 1` continue with `sibling (parent focus)`. -/
def branchGo : Nat → Nat → List Nat
  | 0, focus => [focus]
  | f + 1, focus =>
    if focus > 1 then focus :: branchGo f (sibling (parent focus)) else [focus]

/-- `get_branch_indices` from builder.rs: the loop output with the trailing
element removed. -/
def get_branch_indices (g : Nat) : List Nat := (branchGo 64 (sibling g)).dropLast

/-- `u64::trailing_zeros`, used by `compute_proof_descriptor`
(builder.rs line 197); `trailing_zeros(0) = 64` on `u64`. -/
def tzGo : Nat → Nat → Nat
  | _, 0 => 64
  | 0, _ => 64
  | f + 1, n + 1 => if (n + 1) % 2 = 1 then 0 else tzGo f ((n + 1) / 2) + 1

def tz (n : Nat) : Nat := tzGo 64 n

/-- `u64` bit length (`64 - leading_zeros`), written with fuel so that it is
kernel-computable; agrees with `Nat.size` on the `u64` domain. -/
def sizeGo : Nat → Nat → Nat
  | _, 0 => 0
  | 0, _ => 0
  | f + 1, n + 1 => sizeGo f ((n + 1) / 2) + 1

def size64 (n : Nat) : Nat := sizeGo 64 n

theorem size_div2 {n : Nat} (h : n ≠ 0) : Nat.size n = Nat.size (n / 2) + 1 := by
  conv_lhs => rw [← Nat.bit_decide_mod_two_eq_one_shiftRight_one n]
  rw [Nat.size_bit]
  · simp [Nat.shiftRight_one]
  · rw [Nat.bit_decide_mod_two_eq_one_shiftRight_one]
    exact h

theorem sizeGo_eq_size : ∀ f n, n < 2 ^ f → sizeGo f n = Nat.size n := by
  intro f
  induction f with
  | zero => intro n h; interval_cases n; simp [sizeGo]
  | succ f ih =>
    intro n h
    match n with
    | 0 => simp [sizeGo]
    | n + 1 =>
      have hdiv : (n + 1) / 2 < 2 ^ f := by
        rw [pow_succ] at h
        omega
      rw [show sizeGo (f + 1) (n + 1) = sizeGo f ((n + 1) / 2) + 1 from rfl,
        ih _ hdiv, ← size_div2 (by omega)]

theorem size64_eq {n : Nat} (h : n < 2 ^ 64) : size64 n = Nat.size n :=
  sizeGo_eq_size 64 n h

/-! ### The binary-lexicographic comparator (builder.rs lines 171-192)

`cmp_binary_lexicographically` compares two `u64` gindices by their binary
representation without leading zeros.  `GeneralizedIndex::BITS - leading_zeros a`
is `size64 a`, and the shifted comparands are `a <<< (64 - size64 a)`. -/

/-- `cmp_binary_lexicographically` from builder.rs. -/
def cmpBinLex (a b : Nat) : Ordering :=
  if a = 0 ∧ b = 0 then .eq
  else if a = 0 then .lt
  else if b = 0 then .gt
  else
    let ashift := a <<< (64 - size64 a)
    let bshift := b <<< (64 - size64 b)
    match compare ashift bshift with
    | .eq => compare (size64 a) (size64 b)
    | o => o

/-- The left-aligned comparison key: `a` shifted so that its most significant
bit sits at bit 63 (for `a < 2 ^ 64`). -/
def blexKey (a : Nat) : Nat := a * 2 ^ (64 - size64 a)

/-- Non-strict binary-lexicographic order. -/
def blexLE (a b : Nat) : Prop := cmpBinLex a b ≠ .gt

/-- Strict binary-lexicographic order. -/
def blexLT (a b : Nat) : Prop := cmpBinLex a b = .lt

instance : DecidableRel blexLE := fun a b => by unfold blexLE; infer_instance
instance : DecidableRel blexLT := fun a b => by unfold blexLT; infer_instance

theorem shiftLeft_eq_key (a : Nat) : a <<< (64 - size64 a) = blexKey a := by
  simp [Nat.shiftLeft_eq, blexKey]

theorem blexKey_pos {n : Nat} (hn : n ≠ 0) : 0 < blexKey n :=
  Nat.mul_pos (Nat.pos_of_ne_zero hn) (Nat.pos_pow_of_pos _ (by omega))

/-- `cmpBinLex` is the lexicographic comparison of `(blexKey a, size64 a)`. -/
theorem cmpBinLex_eq_lex (a b : Nat) :
    cmpBinLex a b =
      (compare (blexKey a) (blexKey b)).then (compare (size64 a) (size64 b)) := by
  have hz : blexKey 0 = 0 := by simp [blexKey]
  by_cases ha : a = 0
  · by_cases hb : b = 0
    · subst ha; subst hb
      simp [cmpBinLex, hz, Ordering.then, compare_eq_iff_eq.mpr (rfl : (0 : Nat) = 0),
        compare_eq_iff_eq.mpr (rfl : size64 0 = size64 0)]
    · subst ha
      have hlt : compare (blexKey 0) (blexKey b) = .lt := by
        rw [hz, compare_lt_iff_lt]; exact blexKey_pos hb
      simp [cmpBinLex, hb, hlt, Ordering.then]
  · by_cases hb : b = 0
    · subst hb
      have hgt : compare (blexKey a) (blexKey 0) = .gt := by
        rw [hz, compare_gt_iff_gt]; exact blexKey_pos ha
      simp [cmpBinLex, ha, hgt, Ordering.then]
    · simp only [cmpBinLex, ha, hb, and_false, false_and, if_false]
      rw [shiftLeft_eq_key, shiftLeft_eq_key]
      rcases h : compare (blexKey a) (blexKey b) with _ | _ | _ <;>
        simp [h, Ordering.then]

theorem blexLE_iff (a b : Nat) :
    blexLE a b ↔
      blexKey a < blexKey b ∨ (blexKey a = blexKey b ∧ size64 a ≤ size64 b) := by
  unfold blexLE
  rw [cmpBinLex_eq_lex]
  rcases h : compare (blexKey a) (blexKey b) with _ | _ | _
  · have := compare_lt_iff_lt.mp h
    simp [Ordering.then, this]
  · have := compare_eq_iff_eq.mp h
    simp [Ordering.then, this, compare_le_iff_le]
  · have := compare_gt_iff_gt.mp h
    simp [Ordering.then]
    omega

theorem blexLT_iff (a b : Nat) :
    blexLT a b ↔
      blexKey a < blexKey b ∨ (blexKey a = blexKey b ∧ size64 a < size64 b) := by
  unfold blexLT
  rw [cmpBinLex_eq_lex]
  rcases h : compare (blexKey a) (blexKey b) with _ | _ | _
  · have := compare_lt_iff_lt.mp h
    simp [Ordering.then, this]
  · have := compare_eq_iff_eq.mp h
    simp [Ordering.then, this, compare_lt_iff_lt]
  · have := compare_gt_iff_gt.mp h
    simp [Ordering.then]
    omega

theorem blexKey_size_inj {a b : Nat}
    (hk : blexKey a = blexKey b) (hs : size64 a = size64 b) : a = b := by
  unfold blexKey at hk
  rw [hs] at hk
  exact Nat.eq_of_mul_eq_mul_right (Nat.pos_pow_of_pos _ (by omega)) hk

instance : IsTrans Nat blexLE := by
  constructor
  intro a b c hab hbc
  rw [blexLE_iff] at *
  omega

instance : IsAntisymm Nat blexLE := by
  constructor
  intro a b hab hba
  rw [blexLE_iff] at *
  rcases hab with h | ⟨hk, hs⟩ <;> rcases hba with h' | ⟨hk', hs'⟩ <;>
    first
      | omega
      | exact blexKey_size_inj hk (by omega)

instance : IsTotal Nat blexLE := by
  constructor
  intro a b
  rw [blexLE_iff, blexLE_iff]
  omega

theorem blexLT_trans {a b c : Nat} (hab : blexLT a b) (hbc : blexLT b c) :
    blexLT a c := by
  rw [blexLT_iff] at *
  omega

theorem blexLT_irrefl (a : Nat) : ¬ blexLT a a := by
  rw [blexLT_iff]
  omega

theorem blexLT_ne {a b : Nat} (h : blexLT a b) : a ≠ b := by
  intro he
  subst he
  exact blexLT_irrefl a h

theorem blexLE_of_lt {a b : Nat} (h : blexLT a b) : blexLE a b := by
  rw [blexLT_iff] at h
  rw [blexLE_iff]
  omega

theorem blexLT_of_le_ne {a b : Nat} (hle : blexLE a b) (hne : a ≠ b) :
    blexLT a b := by
  rw [blexLE_iff] at hle
  rw [blexLT_iff]
  rcases hle with h | ⟨hk, hs⟩
  · omega
  · rcases Nat.lt_or_ge (size64 a) (size64 b) with h | h
    · omega
    · exact absurd (blexKey_size_inj hk (by omega)) hne

/-! ### Size and subtree-interval facts -/

theorem blexKey_eq_size {a : Nat} (h : a < 2 ^ 64) :
    blexKey a = a * 2 ^ (64 - Nat.size a) := by
  rw [blexKey, size64_eq h]

theorem size_eq_of_bounds {m k : Nat} (h1 : 2 ^ k ≤ m) (h2 : m < 2 ^ (k + 1)) :
    Nat.size m = k + 1 := by
  have hle : Nat.size m ≤ k + 1 := Nat.size_le.mpr h2
  have hlt : k < Nat.size m := Nat.lt_size.mpr h1
  omega

theorem size_pos_of_pos {m : Nat} (h : 0 < m) : 0 < Nat.size m :=
  Nat.lt_size.mpr (by simpa using h)

/-- `x` lies in the subtree of `g`: some ancestor chain of divisions by two
reaches `g`. -/
def underG (g x : Nat) : Prop := ∃ k, x / 2 ^ k = g

theorem underG_refl (g : Nat) : underG g g := ⟨0, by simp⟩

theorem underG_trans {a b c : Nat} (h1 : underG a b) (h2 : underG b c) :
    underG a c := by
  obtain ⟨k, hk⟩ := h1
  obtain ⟨j, hj⟩ := h2
  exact ⟨j + k, by rw [pow_add, ← Nat.div_div_eq_div_mul, hj, hk]⟩

theorem underG_bounds {g x k : Nat} (hg : 0 < g) (h : x / 2 ^ k = g) :
    g * 2 ^ k ≤ x ∧ x < (g + 1) * 2 ^ k := by
  constructor
  · calc g * 2 ^ k = x / 2 ^ k * 2 ^ k := by rw [h]
      _ ≤ x := Nat.div_mul_le_self x _
  · have := (Nat.div_lt_iff_lt_mul (show 0 < 2 ^ k by positivity)).mp
      (Nat.lt_succ_self (x / 2 ^ k))
    rw [h, Nat.succ_eq_add_one] at this
    omega

theorem underG_le {g x : Nat} (hg : 0 < g) (h : underG g x) : g ≤ x := by
  obtain ⟨k, hk⟩ := h
  have := (underG_bounds hg hk).1
  have h2 : 1 ≤ 2 ^ k := Nat.one_le_two_pow
  calc g = g * 1 := by ring
    _ ≤ g * 2 ^ k := Nat.mul_le_mul_left _ h2
    _ ≤ x := this

theorem size_of_underG {g x k : Nat} (hg : 0 < g) (h : x / 2 ^ k = g) :
    Nat.size x = Nat.size g + k := by
  obtain ⟨hl, hr⟩ := underG_bounds hg h
  have hgs : 0 < Nat.size g := size_pos_of_pos hg
  have h1 : 2 ^ (Nat.size g - 1) ≤ g := Nat.lt_size.mp (by omega)
  have h2 : g < 2 ^ Nat.size g := Nat.lt_size_self g
  have hxl : 2 ^ (Nat.size g - 1 + k) ≤ x := by
    calc 2 ^ (Nat.size g - 1 + k) = 2 ^ (Nat.size g - 1) * 2 ^ k := by rw [pow_add]
      _ ≤ g * 2 ^ k := Nat.mul_le_mul_right _ h1
      _ ≤ x := hl
  have hxr : x < 2 ^ (Nat.size g + k) := by
    calc x < (g + 1) * 2 ^ k := hr
      _ ≤ 2 ^ Nat.size g * 2 ^ k := Nat.mul_le_mul_right _ (by omega)
      _ = 2 ^ (Nat.size g + k) := by rw [pow_add]
  have := size_eq_of_bounds hxl (by
    have heq : Nat.size g - 1 + k + 1 = Nat.size g + k := by omega
    rw [heq]
    exact hxr)
  omega

theorem blexKey_of_underG {g x k : Nat} (hg : 0 < g) (hx64 : x < 2 ^ 64)
    (h : x / 2 ^ k = g) :
    blexKey g ≤ blexKey x ∧ blexKey x < blexKey g + 2 ^ (64 - Nat.size g) := by
  obtain ⟨hl, hr⟩ := underG_bounds hg h
  have hg64 : g < 2 ^ 64 := by
    have h1 : 1 ≤ 2 ^ k := Nat.one_le_two_pow
    have h2 : g * 1 ≤ g * 2 ^ k := Nat.mul_le_mul_left _ h1
    omega
  rw [blexKey_eq_size hx64, blexKey_eq_size hg64]
  have hsx : Nat.size x = Nat.size g + k := size_of_underG hg h
  have hk64 : Nat.size g + k ≤ 64 := by
    rw [← hsx]
    exact Nat.size_le.mpr hx64
  have hsplit : 2 ^ k * 2 ^ (64 - Nat.size g - k) = 2 ^ (64 - Nat.size g) := by
    rw [← pow_add]
    congr 1
    omega
  have hkey : x * 2 ^ (64 - Nat.size x) = x * 2 ^ (64 - Nat.size g - k) := by
    rw [hsx]
    congr 2
    omega
  have hgkey : g * 2 ^ (64 - Nat.size g) = g * 2 ^ k * 2 ^ (64 - Nat.size g - k) := by
    rw [Nat.mul_assoc, hsplit]
  constructor
  · rw [hkey, hgkey]
    exact Nat.mul_le_mul_right _ hl
  · rw [hkey, hgkey]
    calc x * 2 ^ (64 - Nat.size g - k)
        < (g + 1) * 2 ^ k * 2 ^ (64 - Nat.size g - k) := by
          exact (Nat.mul_lt_mul_right (by positivity)).mpr (by omega)
      _ = g * 2 ^ k * 2 ^ (64 - Nat.size g - k) + 2 ^ (64 - Nat.size g) := by
          rw [Nat.add_mul, Nat.one_mul, Nat.mul_assoc, Nat.add_mul, Nat.mul_assoc, hsplit]

/-- All gindices in the left subtree of `g` precede all gindices in the right
subtree of `g` in the binary-lexicographic (pre-) order. -/
theorem blexLT_of_split {g x y : Nat} (hg : 0 < g) (hxs : x < 2 ^ 64)
    (hys : y < 2 ^ 64) (hx : underG (2 * g) x) (hy : underG (2 * g + 1) y) :
    blexLT x y := by
  obtain ⟨k, hk⟩ := hx
  obtain ⟨j, hj⟩ := hy
  have hg64 : g < 2 ^ 64 := by
    have := underG_le (show 0 < 2 * g by omega) ⟨k, hk⟩
    omega
  have hsg : Nat.size (2 * g) = Nat.size g + 1 := by
    have h2 : (2 * g) / 2 ^ 1 = g := by omega
    simpa using size_of_underG hg h2
  have hsg' : Nat.size (2 * g + 1) = Nat.size g + 1 := by
    have h2 : (2 * g + 1) / 2 ^ 1 = g := by omega
    simpa using size_of_underG hg h2
  have hb1 : Nat.size g + 1 ≤ 64 := by
    have h3 := size_of_underG (show 0 < 2 * g by omega) hk
    have h4 : Nat.size x ≤ 64 := Nat.size_le.mpr hxs
    omega
  have hx' := blexKey_of_underG (show 0 < 2 * g by omega) hxs hk
  have hy' := blexKey_of_underG (show 0 < 2 * g + 1 by omega) hys hj
  have h2g64 : 2 * g < 2 ^ 64 := by
    have := underG_le (show 0 < 2 * g by omega) ⟨k, hk⟩
    omega
  have h2g164 : 2 * g + 1 < 2 ^ 64 := by
    have := underG_le (show 0 < 2 * g + 1 by omega) ⟨j, hj⟩
    omega
  have h2 : (2:Nat) * 2 ^ (64 - (Nat.size g + 1)) = 2 ^ (64 - Nat.size g) := by
    rw [← pow_succ']
    congr 1
    omega
  have hkeyg : blexKey (2 * g) = g * 2 ^ (64 - Nat.size g) := by
    rw [blexKey_eq_size h2g64, hsg]
    calc 2 * g * 2 ^ (64 - (Nat.size g + 1))
        = g * (2 * 2 ^ (64 - (Nat.size g + 1))) := by ring
      _ = g * 2 ^ (64 - Nat.size g) := by rw [h2]
  have hkeyg' : blexKey (2 * g + 1) =
      g * 2 ^ (64 - Nat.size g) + 2 ^ (64 - (Nat.size g + 1)) := by
    rw [blexKey_eq_size h2g164, hsg']
    calc (2 * g + 1) * 2 ^ (64 - (Nat.size g + 1))
        = g * (2 * 2 ^ (64 - (Nat.size g + 1))) + 2 ^ (64 - (Nat.size g + 1)) := by ring
      _ = g * 2 ^ (64 - Nat.size g) + 2 ^ (64 - (Nat.size g + 1)) := by rw [h2]
  rw [blexLT_iff]
  left
  have hxu : blexKey x < blexKey (2 * g) + 2 ^ (64 - Nat.size (2 * g)) := hx'.2
  rw [hkeyg, hsg] at hxu
  rw [hkeyg'] at hy'
  omega

theorem blexLT_of_same_size {a b : Nat} (ha : a < 2 ^ 64) (hb : b < 2 ^ 64)
    (hs : Nat.size a = Nat.size b) (h : a < b) : blexLT a b := by
  rw [blexLT_iff]
  left
  rw [blexKey_eq_size ha, blexKey_eq_size hb, hs]
  exact (Nat.mul_lt_mul_right (by positivity)).mpr h

theorem underG_one {x : Nat} (hx : 0 < x) : underG 1 x := by
  refine ⟨Nat.size x - 1, ?_⟩
  have h1 : 2 ^ (Nat.size x - 1) ≤ x := by
    have hs := size_pos_of_pos hx
    exact Nat.lt_size.mp (by omega)
  have h2 : x < 2 ^ Nat.size x := Nat.lt_size_self x
  have hs := size_pos_of_pos hx
  have h3 : x < 2 ^ (Nat.size x - 1) * 2 := by
    have heq : 2 ^ (Nat.size x - 1) * 2 = 2 ^ Nat.size x := by
      rw [← pow_succ]
      congr 1
      omega
    omega
  rw [Nat.div_eq_of_lt_le] <;> omega

/-! ### The container's cached Merkle tree

A container that implements `Prove` exposes a full binary Merkle tree
(`container.compute_tree()`); every internal node hashes its two children and
a gindex addresses a node root-down.  The hash is abstracted as a binary
operation `H` (the source fixes it to SHA-256). -/

inductive MTree (α : Type) where
  | leaf (v : α)
  | node (l r : MTree α)
deriving DecidableEq

/-- The root value of a (sub)tree: internal nodes hash their two children. -/
def MTree.rootHash (H : α → α → α) : MTree α → α
  | .leaf v => v
  | .node l r => H (l.rootHash H) (r.rootHash H)

/-- Navigate to the subtree addressed by a gindex (root = 1), with the 64-bit
depth fuel of a `u64` gindex. -/
def subtreeGo : Nat → MTree α → Nat → Option (MTree α)
  | _, _, 0 => none
  | _, t, 1 => some t
  | 0, _, _ => none
  | f + 1, t, g + 2 =>
    match subtreeGo f t ((g + 2) / 2) with
    | some (MTree.node l r) => some (if (g + 2) % 2 = 0 then l else r)
    | _ => none

def subtreeAt (t : MTree α) (g : Nat) : Option (MTree α) := subtreeGo 64 t g

/-- The node of the container at a gindex (`proof.leaf` produced by
`Prover::compute_proof_cached_tree` for that gindex). -/
def valueAt (H : α → α → α) (t : MTree α) (g : Nat) : Option α :=
  (subtreeAt t g).map (MTree.rootHash H)

/-! ### Proof shapes

A compact multiproof descriptor describes one full binary tree whose leaves
are the provided nodes; `VTree` is that tree together with the provided
values.  (It is a specification device: the source encodes the same
information as the `descriptor` bitvector plus the `data` buffer.) -/

inductive VTree (α : Type) where
  | pv (v : α)
  | br (l r : VTree α)
deriving DecidableEq

/-- Pre-order serialization: `0` = internal (recurse left, right),
`1` = provided node; this is exactly the descriptor format of
consensus-specs compact multiproofs. -/
def VTree.serial : VTree α → List Bool
  | .pv _ => [true]
  | .br l r => false :: (l.serial ++ r.serial)

/-- The provided values in pre-order (the `data` buffer contents). -/
def VTree.leaves : VTree α → List α
  | .pv v => [v]
  | .br l r => l.leaves ++ r.leaves

/-- The gindices of the provided nodes in pre-order, for a subtree rooted at
gindex `g`. -/
def VTree.gidxList : VTree α → Nat → List Nat
  | .pv _, g => [g]
  | .br l r, g => l.gidxList (2 * g) ++ r.gidxList (2 * g + 1)

/-- The root value obtained by hashing the provided values along the shape. -/
def VTree.rootVal (H : α → α → α) : VTree α → α
  | .pv v => v
  | .br l r => H (l.rootVal H) (r.rootVal H)

/-! ### The verifier stack machine
(`calculate_compact_multi_merkle_root`, multiproof.rs lines 216-266)

Stack entries are `Leaf` (consumed from `data`), `Computed` (result of a
hash), or `Internal` (marker pushed on a `0` bit).  The result type keeps the
source's three observable outcomes apart: returning `Ok(root)`, returning
`Err(InvalidProof)` (only the earlier recursive revision does this), and
panicking (`assert_eq!`/`panic!`/index out of bounds). -/

inductive SNode (α : Type) where
  | internalN
  | leafN (v : α)
  | computedN (v : α)

inductive CalcResult (α : Type) where
  | ok (v : α)
  | invalidProof
  | panicked
deriving DecidableEq

/-- Push a value node and run the reduction loop of the stack machine: while
the top two entries are value nodes sitting on an `Internal` marker, replace
all three by the hash of the pair (left pushed first, so the stack head is the
right child). -/
def reducePush (H : α → α → α) : SNode α → List (SNode α) → List (SNode α)
  | x, .leafN w :: .internalN :: rest =>
    match x with
    | .leafN v => reducePush H (.computedN (H w v)) rest
    | .computedN v => reducePush H (.computedN (H w v)) rest
    | .internalN => .internalN :: .leafN w :: .internalN :: rest
  | x, .computedN w :: .internalN :: rest =>
    match x with
    | .leafN v => reducePush H (.computedN (H w v)) rest
    | .computedN v => reducePush H (.computedN (H w v)) rest
    | .internalN => .internalN :: .computedN w :: .internalN :: rest
  | x, st => x :: st

/-- The loop of `calculate_compact_multi_merkle_root`: descriptor bits drive
the stack; afterwards the stack must hold exactly one `Computed` node
(`assert_eq!(stack.len(), 1)` panics otherwise, and a lone `Leaf` root hits
`panic!("root must be computed")`).  Leftover data is not inspected. -/
def runMachine (H : α → α → α) : List Bool → List α → List (SNode α) → CalcResult α
  | [], _, [.computedN v] => .ok v
  | [], _, _ => .panicked
  | true :: _, [], _ => .panicked
  | true :: bs, d :: ds, st => runMachine H bs ds (reducePush H (.leafN d) st)
  | false :: bs, ds, st => runMachine H bs ds (.internalN :: st)

/-- `Multiproof::calculate_root` of multiproof.rs (data given as whole
nodes). -/
def calcRootStack (H : α → α → α) (data : List α) (descriptor : List Bool) :
    CalcResult α :=
  runMachine H descriptor data []

/-! ### The earlier recursive verifier
(`calculate_compact_multi_merkle_root_inner` and `Multiproof::calculate_root`,
multiproof_builder.rs lines 211-223 and 307-323)

The recursion consumes descriptor bits and nodes through a mutable pointer;
out-of-range indexing (descriptor or node slice exhausted) is a panic, and the
wrapper returns `InvalidProof` whenever bits or nodes are left over. -/

def innerFuel (H : α → α → α) : Nat → List Bool → List α → Option (α × List Bool × List α)
  | 0, _, _ => none
  | _ + 1, [], _ => none
  | _ + 1, true :: _, [] => none
  | _ + 1, true :: bs, n :: ns => some (n, bs, ns)
  | f + 1, false :: bs, ns =>
    match innerFuel H f bs ns with
    | none => none
    | some (l, bs1, ns1) =>
      match innerFuel H f bs1 ns1 with
      | none => none
      | some (r, bs2, ns2) => some (H l r, bs2, ns2)

/-- `Multiproof::calculate_root` of multiproof_builder.rs. -/
def calcRootRec (H : α → α → α) (nodes : List α) (descriptor : List Bool) :
    CalcResult α :=
  match innerFuel H descriptor.length descriptor nodes with
  | none => .panicked
  | some (root, bits, ns) =>
    if bits.length ≠ 0 ∨ ns.length ≠ 0 then .invalidProof else .ok root

/-! ### The gindex iterator (`GIndexIterator`, multiproof.rs lines 159-196)

The iterator walks the descriptor keeping the current gindex and a stack of
deferred parents; a failed `stack.pop()?` ends the iteration without emitting
the element. -/

def gIter : List Bool → Nat → List Nat → List Nat
  | [], _, _ => []
  | false :: bs, cur, stk => gIter bs (2 * cur) (cur :: stk)
  | true :: _, _, [] => []
  | true :: bs, cur, p :: stk => cur :: gIter bs (2 * p + 1) stk

/-- `GIndexIterator::new` starts at gindex 1 with stack `[1]`. -/
def gIterRun (descriptor : List Bool) : List Nat := gIter descriptor 1 [1]

/-! ### Correctness of the stack machine on well-formed proofs -/

/-- The stack entry a whole subproof reduces to: a provided root stays a
`Leaf`, an internal root becomes a `Computed` hash. -/
def tagOf (H : α → α → α) : VTree α → SNode α
  | .pv v => .leafN v
  | .br l r => .computedN ((VTree.br l r).rootVal H)

theorem runMachine_serial (H : α → α → α) (s : VTree α) :
    ∀ (bs : List Bool) (ds : List α) (st : List (SNode α)),
      runMachine H (s.serial ++ bs) (s.leaves ++ ds) st =
        runMachine H bs ds (reducePush H (tagOf H s) st) := by
  induction s with
  | pv v => intro bs ds st; rfl
  | br l r ihl ihr =>
    intro bs ds st
    have h1 : (VTree.br l r).serial ++ bs =
        false :: (l.serial ++ (r.serial ++ bs)) := by
      simp [VTree.serial]
    have h2 : (VTree.br l r).leaves ++ ds = l.leaves ++ (r.leaves ++ ds) := by
      simp [VTree.leaves]
    rw [h1, h2]
    rw [show runMachine H (false :: (l.serial ++ (r.serial ++ bs)))
        (l.leaves ++ (r.leaves ++ ds)) st =
        runMachine H (l.serial ++ (r.serial ++ bs))
        (l.leaves ++ (r.leaves ++ ds)) (.internalN :: st) from rfl]
    rw [ihl, ihr]
    congr 1
    cases l <;> cases r <;> rfl

theorem calcRootStack_serial_br (H : α → α → α) (l r : VTree α) (extra : List α) :
    calcRootStack H ((VTree.br l r).leaves ++ extra) (VTree.br l r).serial =
      .ok ((VTree.br l r).rootVal H) := by
  unfold calcRootStack
  have h := runMachine_serial H (VTree.br l r) [] extra []
  rw [List.append_nil] at h
  rw [h]
  rfl

theorem calcRootStack_serial_pv (H : α → α → α) (v : α) (extra : List α) :
    calcRootStack H ((VTree.pv v).leaves ++ extra) (VTree.pv v).serial = .panicked := by
  rfl

/-- Two complete subtrees in sequence leave a stack of length 2: the final
`assert_eq!(stack.len(), 1)` panics. -/
theorem calcRootStack_two (H : α → α → α) (s1 s2 : VTree α) :
    calcRootStack H (s1.leaves ++ s2.leaves) (s1.serial ++ s2.serial) = .panicked := by
  unfold calcRootStack
  rw [runMachine_serial H s1 s2.serial s2.leaves []]
  have h2 := runMachine_serial H s2 [] [] (reducePush H (tagOf H s1) [])
  rw [List.append_nil, List.append_nil] at h2
  rw [h2]
  have hred : reducePush H (tagOf H s1) [] = [tagOf H s1] := by
    cases s1 <;> rfl
  rw [hred]
  cases s2 <;> cases s1 <;> rfl

/-! ### Correctness of the earlier recursive verifier -/

theorem innerFuel_serial (H : α → α → α) (s : VTree α) :
    ∀ (f : Nat) (bs : List Bool) (ds : List α),
      s.serial.length + bs.length ≤ f →
      innerFuel H f (s.serial ++ bs) (s.leaves ++ ds) = some (s.rootVal H, bs, ds) := by
  induction s with
  | pv v =>
    intro f bs ds hf
    simp only [VTree.serial, List.length_singleton] at hf
    obtain ⟨f', rfl⟩ : ∃ f', f = f' + 1 := ⟨f - 1, by omega⟩
    rfl
  | br l r ihl ihr =>
    intro f bs ds hf
    simp only [VTree.serial, List.length_cons, List.length_append] at hf
    obtain ⟨f', rfl⟩ : ∃ f', f = f' + 1 := ⟨f - 1, by omega⟩
    have h1 : (VTree.br l r).serial ++ bs =
        false :: (l.serial ++ (r.serial ++ bs)) := by
      simp [VTree.serial]
    have h2 : (VTree.br l r).leaves ++ ds = l.leaves ++ (r.leaves ++ ds) := by
      simp [VTree.leaves]
    rw [h1, h2]
    have hl := ihl f' (r.serial ++ bs) (r.leaves ++ ds) (by simp; omega)
    have hr := ihr f' bs ds (by omega)
    rw [show innerFuel H (f' + 1) (false :: (l.serial ++ (r.serial ++ bs)))
        (l.leaves ++ (r.leaves ++ ds)) =
        (match innerFuel H f' (l.serial ++ (r.serial ++ bs)) (l.leaves ++ (r.leaves ++ ds)) with
         | none => none
         | some (lv, bs1, ns1) =>
           match innerFuel H f' bs1 ns1 with
           | none => none
           | some (rv, bs2, ns2) => some (H lv rv, bs2, ns2)) from rfl]
    rw [hl]
    dsimp only
    rw [hr]
    rfl

theorem calcRootRec_exact (H : α → α → α) (s : VTree α) :
    calcRootRec H s.leaves s.serial = .ok (s.rootVal H) := by
  unfold calcRootRec
  have h := innerFuel_serial H s s.serial.length [] [] (by simp)
  rw [List.append_nil, List.append_nil] at h
  rw [h]
  simp

theorem calcRootRec_leftover (H : α → α → α) (s : VTree α)
    (eb : List Bool) (en : List α) (h : eb ≠ [] ∨ en ≠ []) :
    calcRootRec H (s.leaves ++ en) (s.serial ++ eb) = .invalidProof := by
  unfold calcRootRec
  have hf := innerFuel_serial H s (s.serial ++ eb).length eb en (by simp)
  rw [hf]
  dsimp only
  have hlen : eb.length ≠ 0 ∨ en.length ≠ 0 := by
    rcases h with h | h
    · have := List.length_pos.mpr h
      omega
    · have := List.length_pos.mpr h
      omega
  rw [if_pos hlen]

/-! ### Correctness of the gindex iterator -/

theorem gIter_serial (s : VTree α) :
    ∀ (bs : List Bool) (cur p : Nat) (stk : List Nat),
      gIter (s.serial ++ bs) cur (p :: stk) =
        s.gidxList cur ++ gIter bs (2 * p + 1) stk := by
  induction s with
  | pv v => intro bs cur p stk; rfl
  | br l r ihl ihr =>
    intro bs cur p stk
    have h1 : (VTree.br l r).serial ++ bs =
        false :: (l.serial ++ (r.serial ++ bs)) := by
      simp [VTree.serial]
    rw [h1]
    rw [show gIter (false :: (l.serial ++ (r.serial ++ bs))) cur (p :: stk) =
        gIter (l.serial ++ (r.serial ++ bs)) (2 * cur) (cur :: p :: stk) from rfl]
    rw [ihl, ihr]
    simp [VTree.gidxList]

theorem gIterRun_serial (s : VTree α) : gIterRun s.serial = s.gidxList 1 := by
  unfold gIterRun
  have h := gIter_serial s [] 1 1 []
  rw [List.append_nil] at h
  rw [h]
  simp [gIter]

/-! ### The descriptor encoding (builder.rs lines 194-201)

`compute_proof_descriptor` walks the pre-order sorted proof gindices and
emits `trailing_zeros(g)` zero bits followed by a one bit for each. -/

def enc (p : Nat) : List Bool := List.replicate (tz p) false ++ [true]

def compute_proof_descriptor (pi : List Nat) : List Bool := (pi.map enc).flatten

theorem tzGo_step {f n : Nat} (hn : 0 < n) :
    tzGo (f + 1) n = if n % 2 = 1 then 0 else tzGo f (n / 2) + 1 := by
  match n, hn with
  | n + 1, _ => rfl

theorem tzGo_pow :
    ∀ (f a j : Nat), (2 * a + 1) * 2 ^ j < 2 ^ f → tzGo f ((2 * a + 1) * 2 ^ j) = j := by
  intro f
  induction f with
  | zero =>
    intro a j h
    exfalso
    have h1 : 0 < (2 * a + 1) * 2 ^ j := by positivity
    simp only [pow_zero] at h
    omega
  | succ f ih =>
    intro a j h
    have hpos : 0 < (2 * a + 1) * 2 ^ j := by positivity
    rw [tzGo_step hpos]
    match j with
    | 0 =>
      have hodd : (2 * a + 1) * 2 ^ 0 % 2 = 1 := by
        simp [Nat.add_mul_mod_self_left]
        omega
      rw [if_pos hodd]
    | j + 1 =>
      have heven : (2 * a + 1) * 2 ^ (j + 1) % 2 = 0 := by
        rw [pow_succ, ← Nat.mul_assoc]
        exact Nat.mul_mod_left _ 2
      rw [if_neg (by omega)]
      have hdiv : (2 * a + 1) * 2 ^ (j + 1) / 2 = (2 * a + 1) * 2 ^ j := by
        rw [pow_succ, ← Nat.mul_assoc]
        exact Nat.mul_div_cancel _ (by omega)
      rw [hdiv, ih a j (by
        have hx : (2 * a + 1) * 2 ^ (j + 1) = ((2 * a + 1) * 2 ^ j) * 2 := by ring
        rw [hx] at h
        omega)]

theorem tz_pow {a j : Nat} (h : (2 * a + 1) * 2 ^ j < 2 ^ 64) :
    tz ((2 * a + 1) * 2 ^ j) = j :=
  tzGo_pow 64 a j h

/-- The descriptor computed from the pre-order gindex list of a shape is
exactly the shape's pre-order serialization.  The `j` parameter tracks the
pending left-descents from the odd gindex `g` above. -/
theorem replicate_serial_eq_enc (s : VTree α) :
    ∀ (g j : Nat), g % 2 = 1 →
      (∀ p ∈ s.gidxList (g * 2 ^ j), p < 2 ^ 64) →
      List.replicate j false ++ s.serial =
        ((s.gidxList (g * 2 ^ j)).map enc).flatten := by
  induction s with
  | pv v =>
    intro g j hodd hb
    have hlt : g * 2 ^ j < 2 ^ 64 := by
      apply hb
      simp [VTree.gidxList]
    have hg : g = 2 * (g / 2) + 1 := by omega
    have : tz (g * 2 ^ j) = j := by
      rw [hg] at hlt ⊢
      exact tz_pow hlt
    simp [VTree.gidxList, VTree.serial, enc, this]
  | br l r ihl ihr =>
    intro g j hodd hb
    have hleft : ∀ p ∈ l.gidxList (g * 2 ^ (j + 1)), p < 2 ^ 64 := by
      intro p hp
      apply hb
      simp only [VTree.gidxList, List.mem_append]
      left
      rw [show g * 2 ^ (j + 1) = 2 * (g * 2 ^ j) from by ring] at hp
      exact hp
    have hright : ∀ p ∈ r.gidxList (2 * (g * 2 ^ j) + 1), p < 2 ^ 64 := by
      intro p hp
      apply hb
      simp only [VTree.gidxList, List.mem_append]
      right
      exact hp
    have hl := ihl g (j + 1) hodd hleft
    have hr := ihr (2 * (g * 2 ^ j) + 1) 0 (by omega) (by
      intro p hp
      apply hright
      rw [pow_zero, mul_one] at hp
      exact hp)
    rw [pow_zero, mul_one, List.replicate_zero, List.nil_append] at hr
    show List.replicate j false ++ (false :: (l.serial ++ r.serial)) = _
    simp only [VTree.gidxList, List.map_append, List.flatten_append]
    rw [show (2 : Nat) * (g * 2 ^ j) = g * 2 ^ (j + 1) from by ring]
    rw [show (2 : Nat) * (g * 2 ^ j) + 1 = g * 2 ^ (j + 1) + 1 from by ring] at hr
    rw [← hl, ← hr]
    rw [List.replicate_succ']
    simp [List.append_assoc]

theorem serial_eq_descriptor (s : VTree α)
    (hb : ∀ p ∈ s.gidxList 1, p < 2 ^ 64) :
    compute_proof_descriptor (s.gidxList 1) = s.serial := by
  have h := replicate_serial_eq_enc s 1 0 (by omega) (by simpa using hb)
  simp only [pow_zero, mul_one, List.replicate_zero, List.nil_append] at h
  rw [compute_proof_descriptor, ← h]

/-! ### Characterization of the path and branch loops -/

theorem pathGo_step {f g : Nat} (hg : 2 ≤ g) :
    pathGo (f + 1) g = g :: pathGo f (g / 2) := by
  match g, hg with
  | g + 2, _ => rfl

theorem pathGo_char :
    ∀ (f g : Nat), 0 < g → g < 2 ^ f →
      pathGo f g = (List.range (Nat.size g)).map (fun k => g / 2 ^ k) := by
  intro f
  induction f with
  | zero => intro g h1 h2; simp at h2; omega
  | succ f ih =>
    intro g h1 h2
    match g, h1 with
    | 1, _ =>
      rw [show pathGo (f + 1) 1 = [1] from rfl, Nat.size_one]
      rfl
    | g + 2, _ =>
      rw [pathGo_step (by omega)]
      have hd : 0 < (g + 2) / 2 := by omega
      have hd2 : (g + 2) / 2 < 2 ^ f := by
        rw [pow_succ] at h2
        omega
      rw [ih _ hd hd2]
      rw [size_div2 (show (g : Nat) + 2 ≠ 0 by omega), List.range_succ_eq_map]
      simp only [List.map_cons, List.map_map, pow_zero, Nat.div_one]
      congr 1
      apply List.map_congr_left
      intro k _
      simp only [Function.comp_apply]
      rw [Nat.div_div_eq_div_mul, ← pow_succ']

theorem pathList_char {g : Nat} (h1 : 0 < g) (h2 : g < 2 ^ 64) :
    pathList g = (List.range (Nat.size g)).map (fun k => g / 2 ^ k) :=
  pathGo_char 64 g h1 h2

/-- Dividing by `2 ^ k` keeps at least two binary digits exactly while
`k ≤ size g - 2`. -/
theorem div_pow_ge_two {g k : Nat} (h1 : 0 < g) (hk : k + 2 ≤ Nat.size g) :
    2 ≤ g / 2 ^ k := by
  have hg : 2 ^ (k + 1) ≤ g := Nat.lt_size.mp (by omega)
  have := Nat.div_le_div_right (c := 2 ^ k) hg
  rw [pow_succ, Nat.mul_div_cancel_left _ (show 0 < 2 ^ k by positivity)] at this
  omega

theorem mem_get_path_indices {g x : Nat} (hg : 0 < g) (hg64 : g < 2 ^ 64) :
    x ∈ get_path_indices g ↔ ∃ k, g / 2 ^ k = x ∧ 2 ≤ x := by
  unfold get_path_indices
  rw [pathList_char hg hg64, ← List.map_dropLast]
  have hr : (List.range (Nat.size g)).dropLast = List.range (Nat.size g - 1) := by
    have hs : 0 < Nat.size g := size_pos_of_pos hg
    conv_lhs => rw [show Nat.size g = (Nat.size g - 1) + 1 by omega]
    rw [List.range_succ]
    simp
  rw [hr]
  simp only [List.mem_map, List.mem_range]
  constructor
  · rintro ⟨k, hk, rfl⟩
    exact ⟨k, rfl, div_pow_ge_two hg (by omega)⟩
  · rintro ⟨k, hk, hx2⟩
    refine ⟨k, ?_, hk⟩
    have hsz : Nat.size g = Nat.size x + k := size_of_underG (by omega) hk
    have hx2' : 2 ≤ Nat.size x := by
      have := Nat.lt_size.mpr (show 2 ^ 1 ≤ x by omega)
      omega
    omega

theorem branchGo_char :
    ∀ (f g : Nat), 0 < g → g < 2 ^ f →
      branchGo f (sibling g) = (pathGo f g).map sibling := by
  intro f
  induction f with
  | zero => intro g h1 h2; simp at h2; omega
  | succ f ih =>
    intro g h1 h2
    match g, h1 with
    | 1, _ =>
      have hs1 : sibling 1 = 0 := by rw [sibling_closed]; simp
      rw [hs1]
      rw [show branchGo (f + 1) 0 = if (0 : Nat) > 1 then 0 :: branchGo f (sibling (parent 0)) else [0] from rfl]
      rw [if_neg (by omega)]
      rw [show pathGo (f + 1) 1 = [1] from rfl]
      simp [hs1]
    | g + 2, _ =>
      have hsib : 2 ≤ sibling (g + 2) := sibling_ge_two (by omega)
      rw [show branchGo (f + 1) (sibling (g + 2)) =
          if sibling (g + 2) > 1 then
            sibling (g + 2) :: branchGo f (sibling (parent (sibling (g + 2))))
          else [sibling (g + 2)] from rfl]
      rw [if_pos (by omega), parent_sibling]
      rw [pathGo_step (by omega)]
      rw [List.map_cons]
      congr 1
      rw [show parent (g + 2) = (g + 2) / 2 from rfl]
      exact ih ((g + 2) / 2) (by omega) (by rw [pow_succ] at h2; omega)

theorem get_branch_eq_map_sibling {g : Nat} (hg : 0 < g) (hg64 : g < 2 ^ 64) :
    get_branch_indices g = (get_path_indices g).map sibling := by
  unfold get_branch_indices get_path_indices pathList
  rw [branchGo_char 64 g hg hg64, List.map_dropLast]

theorem mem_get_branch_indices {g x : Nat} (hg : 0 < g) (hg64 : g < 2 ^ 64) :
    x ∈ get_branch_indices g ↔ ∃ y, (∃ k, g / 2 ^ k = y ∧ 2 ≤ y) ∧ sibling y = x := by
  rw [get_branch_eq_map_sibling hg hg64]
  simp only [List.mem_map, mem_get_path_indices hg hg64]

/-! ### The multiproof builder (builder.rs lines 136-169 and 76-133) -/

/-- The helper gindices of `compute_proof_indices_and_value_mask`: the union
of branch indices minus the union of path indices, as a set (the source uses
`HashSet`s; only the set matters because the result is sorted afterwards). -/
def helpersList (G : List Nat) : List Nat :=
  ((G.flatMap get_branch_indices).dedup).filter
    (fun x => decide (x ∉ G.flatMap get_path_indices))

/-- The sorted proof indices: helpers chained with the requested gindices and
sorted by `cmp_binary_lexicographically` (builder.rs lines 162-168). -/
def proofIndices (G : List Nat) : List Nat :=
  List.insertionSort blexLE (helpersList G ++ G)

/-- The value mask marks the proof indices that were requested. -/
def valueMask (G : List Nat) : List Bool :=
  (proofIndices G).map (fun x => decide (x ∈ G))

/-- The strict ancestors (up to the root) of the requested gindices: the
internal nodes of the proof shape. -/
def ancList (G : List Nat) : List Nat := G.flatMap (fun g => (pathList g).tail)

theorem one_le_div_pow {g k : Nat} (h : 2 ^ k ≤ g) : 1 ≤ g / 2 ^ k :=
  Nat.one_le_div_iff (by positivity) |>.mpr h

theorem mem_pathList_tail {g x : Nat} (hg : 0 < g) (hg64 : g < 2 ^ 64) :
    x ∈ (pathList g).tail ↔ ∃ k, 1 ≤ k ∧ g / 2 ^ k = x ∧ 0 < x := by
  rw [pathList_char hg hg64]
  have hs : 0 < Nat.size g := size_pos_of_pos hg
  conv_lhs =>
    rw [show Nat.size g = (Nat.size g - 1) + 1 by omega, List.range_succ_eq_map]
  simp only [List.map_cons, List.tail_cons, List.map_map, List.mem_map, List.mem_range]
  constructor
  · rintro ⟨k, hk, rfl⟩
    refine ⟨k + 1, by omega, rfl, ?_⟩
    have hp : 2 ^ (k + 1) ≤ g := Nat.lt_size.mp (by omega)
    have := one_le_div_pow hp
    simpa [Function.comp] using this
  · rintro ⟨k, hk1, hdiv, hxpos⟩
    have hsz : Nat.size g = Nat.size x + k := size_of_underG hxpos hdiv
    have hxs : 0 < Nat.size x := size_pos_of_pos hxpos
    refine ⟨k - 1, by omega, ?_⟩
    simp only [Function.comp]
    rw [Nat.succ_eq_add_one, show k - 1 + 1 = k by omega, hdiv]

theorem mem_ancList {G : List Nat} (hG : ∀ g ∈ G, 0 < g ∧ g < 2 ^ 64) {x : Nat} :
    x ∈ ancList G ↔ ∃ g ∈ G, ∃ k, 1 ≤ k ∧ g / 2 ^ k = x ∧ 0 < x := by
  unfold ancList
  simp only [List.mem_flatMap]
  constructor
  · rintro ⟨g, hgG, hx⟩
    obtain ⟨h1, h2⟩ := hG g hgG
    exact ⟨g, hgG, (mem_pathList_tail h1 h2).mp hx⟩
  · rintro ⟨g, hgG, hk⟩
    obtain ⟨h1, h2⟩ := hG g hgG
    exact ⟨g, hgG, (mem_pathList_tail h1 h2).mpr hk⟩

/-! ### The shape determined by a set of internal nodes -/

/-- The proof shape determined by a set `I` of internal gindices: starting
from a root gindex, branch wherever the gindex is in `I`; provided nodes
carry the container's node value at their gindex. -/
def buildVT (H : α → α → α) (t : MTree α) (dflt : α) (I : List Nat) :
    Nat → Nat → VTree α
  | 0, g => .pv ((valueAt H t g).getD dflt)
  | f + 1, g =>
    if g ∈ I then
      .br (buildVT H t dflt I f (2 * g)) (buildVT H t dflt I f (2 * g + 1))
    else .pv ((valueAt H t g).getD dflt)

/-- Largest element of a list (0 when empty). -/
def supList (I : List Nat) : Nat := I.foldr max 0

theorem le_supList {I : List Nat} {x : Nat} (h : x ∈ I) : x ≤ supList I := by
  induction I with
  | nil => cases h
  | cons a as ih =>
    rcases List.mem_cons.mp h with rfl | h
    · simp [supList]
    · have := ih h
      simp only [supList, List.foldr_cons] at *
      omega

/-- `x` is a provided node of the shape below `g` iff it lies below `g`,
is not internal, and every strictly intermediate ancestor (including `g`
itself when `x ≠ g`) is internal. -/
def frontierP (I : List Nat) (g x : Nat) : Prop :=
  ∃ d, x / 2 ^ d = g ∧ x ∉ I ∧ ∀ j, 1 ≤ j → j ≤ d → x / 2 ^ j ∈ I

theorem mem_gidx_buildVT (H : α → α → α) (t : MTree α) (dflt : α) (I : List Nat) :
    ∀ (f g x : Nat), 0 < g → supList I < f + g →
      (x ∈ (buildVT H t dflt I f g).gidxList g ↔ frontierP I g x) := by
  intro f
  induction f with
  | zero =>
    intro g x hg hf
    have hgI : g ∉ I := fun h => by
      have := le_supList h
      omega
    show x ∈ (VTree.pv _).gidxList g ↔ _
    simp only [VTree.gidxList, List.mem_singleton]
    constructor
    · rintro rfl
      exact ⟨0, by simp, hgI, by omega⟩
    · rintro ⟨d, hdiv, hxI, hchain⟩
      rcases Nat.eq_zero_or_pos d with rfl | hd
      · simpa using hdiv
      · exfalso
        exact hgI (hdiv ▸ hchain d (by omega) le_rfl)
  | succ f ih =>
    intro g x hg hf
    by_cases hgI : g ∈ I
    · rw [show buildVT H t dflt I (f + 1) g =
          .br (buildVT H t dflt I f (2 * g)) (buildVT H t dflt I f (2 * g + 1)) from by
        simp [buildVT, hgI]]
      simp only [VTree.gidxList, List.mem_append]
      rw [ih (2 * g) x (by omega) (by omega), ih (2 * g + 1) x (by omega) (by omega)]
      constructor
      · rintro (⟨d, hdiv, hxI, hchain⟩ | ⟨d, hdiv, hxI, hchain⟩)
        · refine ⟨d + 1, ?_, hxI, ?_⟩
          · rw [pow_succ, ← Nat.div_div_eq_div_mul, hdiv]
            omega
          · intro j hj1 hjd
            rcases Nat.lt_or_ge j (d + 1) with hlt | hge
            · exact hchain j hj1 (by omega)
            · have hjeq : j = d + 1 := by omega
              subst hjeq
              rw [pow_succ, ← Nat.div_div_eq_div_mul, hdiv]
              rw [show 2 * g / 2 = g by omega]
              exact hgI
        · refine ⟨d + 1, ?_, hxI, ?_⟩
          · rw [pow_succ, ← Nat.div_div_eq_div_mul, hdiv]
            omega
          · intro j hj1 hjd
            rcases Nat.lt_or_ge j (d + 1) with hlt | hge
            · exact hchain j hj1 (by omega)
            · have hjeq : j = d + 1 := by omega
              subst hjeq
              rw [pow_succ, ← Nat.div_div_eq_div_mul, hdiv]
              rw [show (2 * g + 1) / 2 = g by omega]
              exact hgI
      · rintro ⟨d, hdiv, hxI, hchain⟩
        rcases Nat.eq_zero_or_pos d with rfl | hd
        · exfalso
          simp at hdiv
          exact hxI (hdiv ▸ hgI)
        · have hc : x / 2 ^ (d - 1) / 2 = g := by
            rw [Nat.div_div_eq_div_mul, ← pow_succ, show d - 1 + 1 = d by omega]
            exact hdiv
          have hcases : x / 2 ^ (d - 1) = 2 * g ∨ x / 2 ^ (d - 1) = 2 * g + 1 := by
            omega
          rcases hcases with hcc | hcc
          · left
            exact ⟨d - 1, hcc, hxI, fun j hj1 hjd => hchain j hj1 (by omega)⟩
          · right
            exact ⟨d - 1, hcc, hxI, fun j hj1 hjd => hchain j hj1 (by omega)⟩
    · rw [show buildVT H t dflt I (f + 1) g = .pv ((valueAt H t g).getD dflt) from by
        simp [buildVT, hgI]]
      simp only [VTree.gidxList, List.mem_singleton]
      constructor
      · rintro rfl
        exact ⟨0, by simp, hgI, by omega⟩
      · rintro ⟨d, hdiv, hxI, hchain⟩
        rcases Nat.eq_zero_or_pos d with rfl | hd
        · simpa using hdiv
        · exfalso
          exact hgI (hdiv ▸ hchain d (by omega) le_rfl)

/-! ### Pre-order gindex lists are sorted by the binary-lex comparator -/

theorem mem_gidxList_under {s : VTree α} {g x : Nat} (h : x ∈ s.gidxList g) :
    underG g x := by
  induction s generalizing g with
  | pv v =>
    simp only [VTree.gidxList, List.mem_singleton] at h
    subst h
    exact underG_refl x
  | br l r ihl ihr =>
    simp only [VTree.gidxList, List.mem_append] at h
    rcases h with h | h
    · exact underG_trans ⟨1, by omega⟩ (ihl h)
    · exact underG_trans ⟨1, by omega⟩ (ihr h)

theorem gidxList_sorted (s : VTree α) :
    ∀ g : Nat, 0 < g → (∀ x ∈ s.gidxList g, x < 2 ^ 64) →
      List.Sorted blexLT (s.gidxList g) := by
  induction s with
  | pv v => intro g hg hb; simp [VTree.gidxList]
  | br l r ihl ihr =>
    intro g hg hb
    simp only [VTree.gidxList] at hb ⊢
    rw [List.Sorted, List.pairwise_append]
    refine ⟨ihl (2 * g) (by omega) (fun x hx => hb x (by simp [hx])),
            ihr (2 * g + 1) (by omega) (fun x hx => hb x (by simp [hx])), ?_⟩
    intro x hx y hy
    exact blexLT_of_split hg (hb x (by simp [hx])) (hb y (by simp [hy]))
      (mem_gidxList_under hx) (mem_gidxList_under hy)

theorem gidxList_nodup {s : VTree α} {g : Nat} (hg : 0 < g)
    (hb : ∀ x ∈ s.gidxList g, x < 2 ^ 64) : (s.gidxList g).Nodup :=
  (gidxList_sorted s g hg hb).imp (fun h => blexLT_ne h)

/-! ### The proof-index set is the frontier of the ancestor set -/

theorem div_chain_of_sibling {x y j : Nat} (hj : 1 ≤ j) (hx : x = sibling y) :
    x / 2 ^ j = y / 2 ^ j := by
  have hp : x / 2 = y / 2 := by
    subst hx
    exact parent_sibling y
  calc x / 2 ^ j = x / 2 / 2 ^ (j - 1) := by
        rw [Nat.div_div_eq_div_mul, ← pow_succ', show j - 1 + 1 = j by omega]
      _ = y / 2 / 2 ^ (j - 1) := by rw [hp]
      _ = y / 2 ^ j := by
        rw [Nat.div_div_eq_div_mul, ← pow_succ', show j - 1 + 1 = j by omega]

theorem eq_sibling_of_same_parent {c x : Nat} (h : c / 2 = x / 2) (hne : c ≠ x) :
    c = sibling x := by
  rw [sibling_closed]
  rcases Nat.mod_two_eq_zero_or_one x with hm | hm <;> simp [hm] <;> omega

theorem mem_helpersList {G : List Nat} (hG : ∀ g ∈ G, 0 < g ∧ g < 2 ^ 64) {x : Nat} :
    x ∈ helpersList G ↔
      (∃ g ∈ G, ∃ y, (∃ k, g / 2 ^ k = y ∧ 2 ≤ y) ∧ sibling y = x) ∧
        (∀ g' ∈ G, ¬ ∃ k, g' / 2 ^ k = x ∧ 2 ≤ x) := by
  unfold helpersList
  rw [List.mem_filter]
  simp only [List.mem_dedup, List.mem_flatMap, decide_eq_true_eq]
  constructor
  · rintro ⟨⟨g, hgG, hbr⟩, hnp⟩
    obtain ⟨h1, h2⟩ := hG g hgG
    refine ⟨⟨g, hgG, (mem_get_branch_indices h1 h2).mp hbr⟩, ?_⟩
    intro g' hg' hpath
    obtain ⟨h1', h2'⟩ := hG g' hg'
    exact hnp ⟨g', hg', (mem_get_path_indices h1' h2').mpr hpath⟩
  · rintro ⟨⟨g, hgG, hbr⟩, hnp⟩
    obtain ⟨h1, h2⟩ := hG g hgG
    refine ⟨⟨g, hgG, (mem_get_branch_indices h1 h2).mpr hbr⟩, ?_⟩
    rintro ⟨g', hg', hpath⟩
    obtain ⟨h1', h2'⟩ := hG g' hg'
    exact hnp g' hg' ((mem_get_path_indices h1' h2').mp hpath)

/-- The central combinatorial fact: for a nonempty antichain of requested
gindices (none the root), the provided nodes of the proof shape are exactly
the requested gindices together with the computed helper gindices. -/
theorem frontier_iff_mem (G : List Nat) (hne : G ≠ [])
    (hge : ∀ g ∈ G, 2 ≤ g) (h63 : ∀ g ∈ G, g < 2 ^ 63)
    (hanti : ∀ g ∈ G, ∀ g' ∈ G, ∀ k, 1 ≤ k → g' / 2 ^ k ≠ g) (x : Nat) :
    frontierP (ancList G) 1 x ↔ (x ∈ helpersList G ∨ x ∈ G) := by
  have hG : ∀ g ∈ G, 0 < g ∧ g < 2 ^ 64 := fun g hg => by
    have := hge g hg
    have := h63 g hg
    constructor <;> omega
  constructor
  · rintro ⟨d, hdiv, hxI, hchain⟩
    have hx1 : 0 < x := by
      rcases Nat.eq_zero_or_pos x with rfl | h
      · simp at hdiv
      · exact h
    by_cases hxG : x ∈ G
    · exact Or.inr hxG
    · left
      obtain ⟨g0, hg0⟩ := List.exists_mem_of_ne_nil G hne
      have hd1 : 1 ≤ d := by
        by_contra hd0
        have hx1' : x = 1 := by
          have : d = 0 := by omega
          subst this
          simpa using hdiv
        subst hx1'
        obtain ⟨hg0p, hg0b⟩ := hG g0 hg0
        have hsz : 2 ≤ Nat.size g0 := by
          have := Nat.lt_size.mpr (show 2 ^ 1 ≤ g0 from hge g0 hg0)
          omega
        obtain ⟨kk, hkk⟩ := underG_one hg0p
        apply hxI
        rw [mem_ancList hG]
        have hsz0 : Nat.size g0 = Nat.size 1 + kk := size_of_underG (by omega) hkk
        rw [Nat.size_one] at hsz0
        exact ⟨g0, hg0, kk, by omega, hkk, by omega⟩
      have hx2 : 2 ≤ x := by
        have := (underG_bounds (by omega) hdiv).1
        have h2d : 2 ≤ 2 ^ d := by
          calc (2:Nat) = 2 ^ 1 := by norm_num
            _ ≤ 2 ^ d := Nat.pow_le_pow_right (by omega) hd1
        omega
      have hpar : x / 2 ^ 1 ∈ ancList G := hchain 1 le_rfl hd1
      rw [mem_ancList hG] at hpar
      obtain ⟨g, hgG, m, hm1, hgm, hppos⟩ := hpar
      have hc2 : g / 2 ^ (m - 1) / 2 = x / 2 := by
        rw [Nat.div_div_eq_div_mul, ← pow_succ, show m - 1 + 1 = m by omega, hgm]
        simp
      by_cases hcx : g / 2 ^ (m - 1) = x
      · exfalso
        rcases Nat.eq_or_lt_of_le hm1 with hm | hm
        · apply hxG
          rw [show m - 1 = 0 by omega, pow_zero, Nat.div_one] at hcx
          exact hcx ▸ hgG
        · apply hxI
          rw [mem_ancList hG]
          exact ⟨g, hgG, m - 1, by omega, hcx, hx1⟩
      · rw [mem_helpersList hG]
        have hcs : g / 2 ^ (m - 1) = sibling x := eq_sibling_of_same_parent hc2 hcx
        have hcge : 2 ≤ g / 2 ^ (m - 1) := by
          have : 1 ≤ x / 2 := by omega
          omega
        constructor
        · refine ⟨g, hgG, g / 2 ^ (m - 1), ⟨m - 1, rfl, hcge⟩, ?_⟩
          rw [hcs]
          unfold sibling
          exact Nat.xor_cancel_right 1 x
        · rintro g' hg' ⟨k2, hk2, -⟩
          rcases Nat.eq_zero_or_pos k2 with rfl | hkpos
          · apply hxG
            rw [pow_zero, Nat.div_one] at hk2
            exact hk2 ▸ hg'
          · apply hxI
            rw [mem_ancList hG]
            exact ⟨g', hg', k2, by omega, hk2, hx1⟩
  · intro h
    rcases h with hx | hxG
    · -- helper gindex
      rw [mem_helpersList hG] at hx
      obtain ⟨⟨g, hgG, y, ⟨k, hgk, hy2⟩, hsy⟩, hnp⟩ := hx
      have hx2 : 2 ≤ x := hsy ▸ sibling_ge_two hy2
      obtain ⟨d, hdiv⟩ := underG_one (show 0 < x by omega)
      refine ⟨d, hdiv, ?_, ?_⟩
      · intro hxI
        rw [mem_ancList hG] at hxI
        obtain ⟨g', hg', m, hm1, hgm, _⟩ := hxI
        exact hnp g' hg' ⟨m, hgm, hx2⟩
      · intro j hj1 hjd
        rw [mem_ancList hG]
        have hsx : Nat.size x = 1 + d := by
          have := size_of_underG (show 0 < 1 by omega) hdiv
          rw [Nat.size_one] at this
          omega
        have hxj : 0 < x / 2 ^ j := by
          apply one_le_div_pow
          exact Nat.lt_size.mp (by omega)
        have hchain : x / 2 ^ j = g / 2 ^ (k + j) := by
          rw [div_chain_of_sibling hj1 hsy.symm]
          rw [← hgk, Nat.div_div_eq_div_mul, ← pow_add]
        exact ⟨g, hgG, k + j, by omega, by rw [← hchain], hxj⟩
    · -- requested gindex
      have hx2 : 2 ≤ x := hge x hxG
      obtain ⟨d, hdiv⟩ := underG_one (show 0 < x by omega)
      refine ⟨d, hdiv, ?_, ?_⟩
      · intro hxI
        rw [mem_ancList hG] at hxI
        obtain ⟨g', hg', m, hm1, hgm, _⟩ := hxI
        exact hanti x hxG g' hg' m hm1 hgm
      · intro j hj1 hjd
        rw [mem_ancList hG]
        have hsx : Nat.size x = 1 + d := by
          have := size_of_underG (show 0 < 1 by omega) hdiv
          rw [Nat.size_one] at this
          omega
        have hxj : 0 < x / 2 ^ j := by
          apply one_le_div_pow
          exact Nat.lt_size.mp (by omega)
        exact ⟨x, hxG, j, hj1, rfl, hxj⟩

/-! ### Subtree navigation facts -/

theorem subtreeGo_fuel :
    ∀ (f f' : Nat) (t : MTree α) (g : Nat), g < 2 ^ f → f ≤ f' →
      subtreeGo f t g = subtreeGo f' t g := by
  intro f
  induction f with
  | zero =>
    intro f' t g hg _
    have : g = 0 := by simpa using hg
    subst this
    cases f' <;> rfl
  | succ f ih =>
    intro f' t g hg hff
    match g with
    | 0 => cases f' <;> rfl
    | 1 =>
      match f' with
      | f' + 1 => rfl
    | g + 2 =>
      match f', hff with
      | f' + 1, _ =>
        have hdiv : (g + 2) / 2 < 2 ^ f := by
          rw [pow_succ] at hg
          omega
        show (match subtreeGo f t ((g + 2) / 2) with
          | some (MTree.node l r) => some (if (g + 2) % 2 = 0 then l else r)
          | _ => none) =
          (match subtreeGo f' t ((g + 2) / 2) with
          | some (MTree.node l r) => some (if (g + 2) % 2 = 0 then l else r)
          | _ => none)
        rw [ih f' t ((g + 2) / 2) hdiv (by omega)]

theorem subtreeAt_step {t : MTree α} {g : Nat} (h2 : 2 ≤ g) (h64 : g < 2 ^ 64) :
    subtreeAt t g =
      match subtreeAt t (g / 2) with
      | some (MTree.node l r) => some (if g % 2 = 0 then l else r)
      | _ => none := by
  unfold subtreeAt
  match g, h2 with
  | g + 2, _ =>
    show (match subtreeGo 63 t ((g + 2) / 2) with
      | some (MTree.node l r) => some (if (g + 2) % 2 = 0 then l else r)
      | _ => none) = _
    rw [subtreeGo_fuel 63 64 t ((g + 2) / 2) (by omega) (by omega)]

theorem subtreeAt_parent_node {t : MTree α} {g : Nat} (h2 : 2 ≤ g)
    (h64 : g < 2 ^ 64) (h : (subtreeAt t g).isSome) :
    ∃ l r, subtreeAt t (g / 2) = some (MTree.node l r) := by
  rw [subtreeAt_step h2 h64] at h
  rcases hp : subtreeAt t (g / 2) with _ | tp
  · rw [hp] at h
    simp at h
  · cases tp with
    | leaf v =>
      rw [hp] at h
      simp at h
    | node l r => exact ⟨l, r, rfl⟩

theorem subtreeAt_children {t : MTree α} {g : Nat} {l r : MTree α} (hg : 0 < g)
    (h64 : 2 * g + 1 < 2 ^ 64) (h : subtreeAt t g = some (MTree.node l r)) :
    subtreeAt t (2 * g) = some l ∧ subtreeAt t (2 * g + 1) = some r := by
  constructor
  · rw [subtreeAt_step (by omega) (by omega)]
    rw [show 2 * g / 2 = g by omega, h]
    simp [show (2 * g) % 2 = 0 by omega]
  · rw [subtreeAt_step (by omega) (by omega)]
    rw [show (2 * g + 1) / 2 = g by omega, h]
    simp [show (2 * g + 1) % 2 = 1 by omega]

theorem subtreeAt_anc_node {t : MTree α} :
    ∀ (k : Nat) (g a : Nat), 1 ≤ k → g / 2 ^ k = a → 0 < a → g < 2 ^ 64 →
      (subtreeAt t g).isSome → ∃ l r, subtreeAt t a = some (MTree.node l r) := by
  intro k
  induction k with
  | zero => omega
  | succ k ih =>
    intro g a _ hdiv ha hg64 hval
    rcases Nat.eq_zero_or_pos k with rfl | hk
    · rw [zero_add, pow_one] at hdiv
      subst hdiv
      exact subtreeAt_parent_node (by omega) hg64 hval
    · have hstep : g / 2 / 2 ^ k = a := by
        rw [Nat.div_div_eq_div_mul, ← pow_succ']
        exact hdiv
      have hg2 : 2 ≤ g := by
        by_contra hlt
        interval_cases g <;> simp_all <;> omega
      obtain ⟨l, r, hn⟩ := subtreeAt_parent_node hg2 hg64 hval
      exact ih (g / 2) a hk hstep ha (by omega) (by rw [hn]; rfl)

/-! ### Values carried by the built shape -/

theorem buildVT_leaves (H : α → α → α) (t : MTree α) (dflt : α) (I : List Nat) :
    ∀ (f g : Nat),
      (buildVT H t dflt I f g).leaves =
        ((buildVT H t dflt I f g).gidxList g).map
          (fun x => (valueAt H t x).getD dflt) := by
  intro f
  induction f with
  | zero => intro g; rfl
  | succ f ih =>
    intro g
    by_cases hgI : g ∈ I
    · rw [show buildVT H t dflt I (f + 1) g =
          .br (buildVT H t dflt I f (2 * g)) (buildVT H t dflt I f (2 * g + 1)) from by
        simp [buildVT, hgI]]
      simp only [VTree.leaves, VTree.gidxList, List.map_append]
      rw [ih (2 * g), ih (2 * g + 1)]
    · rw [show buildVT H t dflt I (f + 1) g = .pv ((valueAt H t g).getD dflt) from by
        simp [buildVT, hgI]]
      rfl

theorem buildVT_rootVal (H : α → α → α) (t : MTree α) (dflt : α) (I : List Nat)
    (hI : ∀ a ∈ I, ∃ l r, subtreeAt t a = some (MTree.node l r))
    (hsup : supList I < 2 ^ 63) :
    ∀ (f g : Nat), 0 < g → (subtreeAt t g).isSome →
      (buildVT H t dflt I f g).rootVal H = (valueAt H t g).getD dflt := by
  intro f
  induction f with
  | zero => intro g _ _; rfl
  | succ f ih =>
    intro g hg hval
    by_cases hgI : g ∈ I
    · rw [show buildVT H t dflt I (f + 1) g =
          .br (buildVT H t dflt I f (2 * g)) (buildVT H t dflt I f (2 * g + 1)) from by
        simp [buildVT, hgI]]
      obtain ⟨l, r, hn⟩ := hI g hgI
      have hg63 : g < 2 ^ 63 := by
        have := le_supList hgI
        omega
      obtain ⟨hcl, hcr⟩ := subtreeAt_children hg (by omega) hn
      have ihl := ih (2 * g) (by omega) (by rw [hcl]; rfl)
      have ihr := ih (2 * g + 1) (by omega) (by rw [hcr]; rfl)
      show H ((buildVT H t dflt I f (2 * g)).rootVal H)
          ((buildVT H t dflt I f (2 * g + 1)).rootVal H) = _
      rw [ihl, ihr]
      unfold valueAt
      rw [hn, hcl, hcr]
      rfl
    · rw [show buildVT H t dflt I (f + 1) g = .pv ((valueAt H t g).getD dflt) from by
        simp [buildVT, hgI]]
      rfl

/-! ### The stack-depth hint (`calculate_max_stack_depth`, multiproof.rs
lines 268-294)

The builder pre-computes the verifier's maximal stack depth by a dry run with
dummy `Computed` nodes; its final `assert_eq!(stack.len(), 1)` panics on a
descriptor that does not describe a single tree (modelled as `none`). -/

def depthPush : List (SNode Unit) → Nat → (List (SNode Unit) × Nat)
  | .computedN _ :: .internalN :: rest, m => depthPush rest (max m (rest.length + 1))
  | st, m => (.computedN () :: st, m)

def depthGo : List Bool → List (SNode Unit) → Nat → Option Nat
  | [], st, m => if st.length = 1 then some m else none
  | true :: bs, st, m =>
    match depthPush st m with
    | (st', m') => depthGo bs st' m'
  | false :: bs, st, m => depthGo bs (.internalN :: st) (max m (st.length + 1))

def calculate_max_stack_depth (descriptor : List Bool) : Option Nat :=
  depthGo descriptor [] 0

theorem depthPush_fst :
    ∀ (st : List (SNode Unit)) (m m' : Nat), (depthPush st m).1 = (depthPush st m').1
  | [], _, _ => rfl
  | [x], _, _ => by cases x <;> rfl
  | x :: y :: rest, m, m' => by
    cases x <;> cases y <;> try rfl
    exact depthPush_fst rest _ _

theorem depthGo_serial (s : VTree α) :
    ∀ (bs : List Bool) (st : List (SNode Unit)) (m : Nat),
      ∃ m', depthGo (s.serial ++ bs) st m =
        depthGo bs ((depthPush st m).1) m' := by
  induction s with
  | pv v =>
    intro bs st m
    refine ⟨(depthPush st m).2, ?_⟩
    rfl
  | br l r ihl ihr =>
    intro bs st m
    have h1 : (VTree.br l r).serial ++ bs =
        false :: (l.serial ++ (r.serial ++ bs)) := by
      simp [VTree.serial]
    rw [h1]
    rw [show depthGo (false :: (l.serial ++ (r.serial ++ bs))) st m =
        depthGo (l.serial ++ (r.serial ++ bs)) (.internalN :: st)
          (max m (st.length + 1)) from rfl]
    obtain ⟨m1, hm1⟩ := ihl (r.serial ++ bs) (.internalN :: st) (max m (st.length + 1))
    rw [hm1]
    have hred1 : (depthPush (.internalN :: st) (max m (st.length + 1))).1 =
        .computedN () :: .internalN :: st := rfl
    rw [hred1]
    obtain ⟨m2, hm2⟩ := ihr bs (.computedN () :: .internalN :: st) m1
    rw [hm2]
    refine ⟨m2, ?_⟩
    congr 1
    rw [show (depthPush (SNode.computedN () :: SNode.internalN :: st) m1).1 =
        (depthPush st (max m1 (st.length + 1))).1 from rfl]
    exact depthPush_fst st _ _

theorem calculate_max_stack_depth_serial (s : VTree α) :
    ∃ d, calculate_max_stack_depth s.serial = some d := by
  unfold calculate_max_stack_depth
  obtain ⟨m', hm'⟩ := depthGo_serial s [] [] 0
  rw [List.append_nil] at hm'
  rw [hm']
  have hred : (depthPush ([] : List (SNode Unit)) 0).1 = [SNode.computedN ()] := rfl
  rw [hred]
  exact ⟨m', rfl⟩

/-! ### The multiproof container and its consumers
(multiproof.rs `Multiproof`, `nodes`, `values`, `get`, `verify`) -/

structure MP (α : Type) where
  data : List α
  value_mask : List Bool
  descriptor : List Bool
  max_stack_depth : Nat
deriving DecidableEq

inductive VerifyResult where
  | ok
  | rootMismatch
  | panicked
deriving DecidableEq

def MP.calcRoot (H : α → α → α) (mp : MP α) : CalcResult α :=
  calcRootStack H mp.data mp.descriptor

/-- `Multiproof::verify`: recompute the root and compare. -/
def MP.verify [DecidableEq α] (H : α → α → α) (mp : MP α) (root : α) : VerifyResult :=
  match mp.calcRoot H with
  | .ok r => if r = root then .ok else .rootMismatch
  | .invalidProof => .panicked
  | .panicked => .panicked

/-- `Multiproof::nodes`: gindices from the descriptor walk zipped with the
data nodes. -/
def MP.nodesList (mp : MP α) : List (Nat × α) :=
  (gIterRun mp.descriptor).zip mp.data

/-- `Multiproof::values`: the nodes filtered by the value mask. -/
def MP.valuesList (mp : MP α) : List (Nat × α) :=
  (mp.nodesList.zip mp.value_mask).filterMap
    (fun p => if p.2 then some p.1 else none)

/-- `Multiproof::get`: linear search among the values. -/
def MP.get (mp : MP α) (g : Nat) : Option α :=
  (mp.valuesList.find? (fun p => p.1 == g)).map (fun p => p.2)

/-- `MultiproofBuilder::build` (builder.rs lines 76-133): compute the sorted
proof indices and value mask, read each node from the container's cached
tree, emit the descriptor and the stack-depth hint.  `none` models both a
gindex invalid for the container (`Err` in the source) and the dry-run panic
on a malformed descriptor. -/
def buildMultiproof (H : α → α → α) (dflt : α) (t : MTree α) (G : List Nat) :
    Option (MP α) :=
  if (proofIndices G).all (fun g => (subtreeAt t g).isSome) then
    match calculate_max_stack_depth (compute_proof_descriptor (proofIndices G)) with
    | none => none
    | some d =>
      some
        { data := (proofIndices G).map (fun g => (valueAt H t g).getD dflt)
          value_mask := (proofIndices G).map (fun x => decide (x ∈ G))
          descriptor := compute_proof_descriptor (proofIndices G)
          max_stack_depth := d }
  else none

/-! ### Identification of the sorted proof indices with the pre-order walk -/

/-- Sort a gindex list with the source's comparator. -/
def sortBlex (l : List Nat) : List Nat := List.insertionSort blexLE l

/-- The proof shape of a request set: branch below every strict ancestor of a
requested gindex. -/
def theVT (H : α → α → α) (dflt : α) (t : MTree α) (G : List Nat) : VTree α :=
  buildVT H t dflt (ancList G) (supList (ancList G) + 1) 1

theorem theVT_gidx_mem {α : Type} (H : α → α → α) (dflt : α) (t : MTree α)
    (G : List Nat) (hne : G ≠ []) (hge : ∀ g ∈ G, 2 ≤ g)
    (h63 : ∀ g ∈ G, g < 2 ^ 63)
    (hanti : ∀ g ∈ G, ∀ g' ∈ G, ∀ k, 1 ≤ k → g' / 2 ^ k ≠ g) :
    ∀ x, x ∈ (theVT H dflt t G).gidxList 1 ↔ (x ∈ helpersList G ∨ x ∈ G) := by
  intro x
  rw [theVT, mem_gidx_buildVT H t dflt (ancList G) (supList (ancList G) + 1) 1 x
    (by omega) (by omega)]
  exact frontier_iff_mem G hne hge h63 hanti x

theorem helpers_bound {G : List Nat} (hge : ∀ g ∈ G, 2 ≤ g)
    (h63 : ∀ g ∈ G, g < 2 ^ 63) {x : Nat} (hx : x ∈ helpersList G) :
    x < 2 ^ 63 + 1 := by
  have hG : ∀ g ∈ G, 0 < g ∧ g < 2 ^ 64 := fun g hg => by
    have := hge g hg
    have := h63 g hg
    constructor <;> omega
  rw [mem_helpersList hG] at hx
  obtain ⟨⟨g, hgG, y, ⟨k, hgk, hy2⟩, hsy⟩, -⟩ := hx
  have hyg : y ≤ g := by
    rw [← hgk]
    exact Nat.div_le_self g (2 ^ k)
  have hg63 := h63 g hgG
  have hs := sibling_closed y
  rcases Nat.mod_two_eq_zero_or_one y with hm | hm <;> rw [hm] at hs <;> simp at hs <;>
    omega

theorem theVT_gidx_bound {α : Type} (H : α → α → α) (dflt : α) (t : MTree α)
    (G : List Nat) (hne : G ≠ []) (hge : ∀ g ∈ G, 2 ≤ g)
    (h63 : ∀ g ∈ G, g < 2 ^ 63)
    (hanti : ∀ g ∈ G, ∀ g' ∈ G, ∀ k, 1 ≤ k → g' / 2 ^ k ≠ g) :
    ∀ x ∈ (theVT H dflt t G).gidxList 1, x < 2 ^ 64 := by
  intro x hx
  rw [theVT_gidx_mem H dflt t G hne hge h63 hanti] at hx
  rcases hx with hx | hx
  · have := helpers_bound hge h63 hx
    omega
  · have := h63 x hx
    omega

theorem helpers_disjoint {G : List Nat} (hge : ∀ g ∈ G, 2 ≤ g)
    (h63 : ∀ g ∈ G, g < 2 ^ 63) : ∀ x ∈ helpersList G, x ∉ G := by
  have hG : ∀ g ∈ G, 0 < g ∧ g < 2 ^ 64 := fun g hg => by
    have := hge g hg
    have := h63 g hg
    constructor <;> omega
  intro x hx hxG
  rw [mem_helpersList hG] at hx
  obtain ⟨-, hnp⟩ := hx
  exact hnp x hxG ⟨0, by simp, hge x hxG⟩

theorem proofIndices_eq_gidxList {α : Type} (H : α → α → α) (dflt : α) (t : MTree α)
    (G : List Nat) (hnd : G.Nodup) (hne : G ≠ []) (hge : ∀ g ∈ G, 2 ≤ g)
    (h63 : ∀ g ∈ G, g < 2 ^ 63)
    (hanti : ∀ g ∈ G, ∀ g' ∈ G, ∀ k, 1 ≤ k → g' / 2 ^ k ≠ g) :
    proofIndices G = (theVT H dflt t G).gidxList 1 := by
  have hbound := theVT_gidx_bound H dflt t G hne hge h63 hanti
  have hsortLT := gidxList_sorted (theVT H dflt t G) 1 (by omega) hbound
  have hsortLE : List.Sorted blexLE ((theVT H dflt t G).gidxList 1) :=
    hsortLT.imp (fun h => blexLE_of_lt h)
  have hnodupG := gidxList_nodup (s := theVT H dflt t G) (g := 1) (by omega) hbound
  have hhn : (helpersList G).Nodup :=
    ((G.flatMap get_branch_indices).nodup_dedup).filter _
  have hpn : (helpersList G ++ G).Nodup :=
    hhn.append hnd (fun x hx hxG => helpers_disjoint hge h63 x hx hxG)
  have hperm : List.Perm (helpersList G ++ G) ((theVT H dflt t G).gidxList 1) :=
    (List.perm_ext_iff_of_nodup hpn hnodupG).mpr (fun a => by
      rw [theVT_gidx_mem H dflt t G hne hge h63 hanti a, List.mem_append])
  exact List.eq_of_perm_of_sorted
    ((List.perm_insertionSort blexLE (helpersList G ++ G)).trans hperm)
    (List.sorted_insertionSort blexLE (helpersList G ++ G)) hsortLE



/-! ### Assembling the builder round-trip -/

theorem subtreeAt_one (t : MTree α) : subtreeAt t 1 = some t := rfl

theorem supList_lt {B : Nat} (hB : 0 < B) :
    ∀ I : List Nat, (∀ x ∈ I, x < B) → supList I < B := by
  intro I
  induction I with
  | nil => intro _; simpa [supList] using hB
  | cons a as ih =>
    intro h
    have ha := h a (List.mem_cons_self a as)
    have has := ih (fun x hx => h x (List.mem_cons_of_mem a hx))
    simp only [supList, List.foldr_cons] at has ⊢
    omega

theorem hG_of_range {G : List Nat} (hge : ∀ g ∈ G, 2 ≤ g)
    (h63 : ∀ g ∈ G, g < 2 ^ 63) : ∀ g ∈ G, 0 < g ∧ g < 2 ^ 64 := fun g hg =>
  ⟨by have := hge g hg; omega, by have := h63 g hg; omega⟩

theorem ancList_nodes {t : MTree α} {G : List Nat}
    (hge : ∀ g ∈ G, 2 ≤ g) (h63 : ∀ g ∈ G, g < 2 ^ 63)
    (hvalid : ∀ g ∈ G, (subtreeAt t g).isSome) :
    ∀ a ∈ ancList G, ∃ l r, subtreeAt t a = some (MTree.node l r) := by
  intro a ha
  rw [mem_ancList (hG_of_range hge h63)] at ha
  obtain ⟨g, hgG, k, hk1, hdiv, hapos⟩ := ha
  exact subtreeAt_anc_node k g a hk1 hdiv hapos ((hG_of_range hge h63) g hgG).2
    (hvalid g hgG)

theorem supList_ancList_lt {G : List Nat} (hge : ∀ g ∈ G, 2 ≤ g)
    (h63 : ∀ g ∈ G, g < 2 ^ 63) : supList (ancList G) < 2 ^ 63 := by
  apply supList_lt (by norm_num)
  intro x hx
  rw [mem_ancList (hG_of_range hge h63)] at hx
  obtain ⟨g, hgG, k, -, hdiv, -⟩ := hx
  have h1 := h63 g hgG
  have h2 : g / 2 ^ k ≤ g := Nat.div_le_self _ _
  omega

theorem one_mem_ancList {G : List Nat} (hne : G ≠ []) (hge : ∀ g ∈ G, 2 ≤ g)
    (h63 : ∀ g ∈ G, g < 2 ^ 63) : 1 ∈ ancList G := by
  obtain ⟨g0, hg0⟩ := List.exists_mem_of_ne_nil G hne
  have h2 := hge g0 hg0
  obtain ⟨k, hk⟩ := underG_one (show 0 < g0 by omega)
  have hsz := size_of_underG (show (0 : Nat) < 1 by omega) hk
  have hs1 : Nat.size 1 = 1 := Nat.size_one
  have hs2 : 2 ≤ Nat.size g0 := Nat.lt_size.mpr (by simpa using h2)
  rw [mem_ancList (hG_of_range hge h63)]
  exact ⟨g0, hg0, k, by omega, hk, by omega⟩

theorem proofIndices_valid {t : MTree α} {G : List Nat}
    (hge : ∀ g ∈ G, 2 ≤ g) (h63 : ∀ g ∈ G, g < 2 ^ 63)
    (hvalid : ∀ g ∈ G, (subtreeAt t g).isSome) :
    ∀ x ∈ proofIndices G, (subtreeAt t x).isSome := by
  intro x hx
  have hx' : x ∈ helpersList G ++ G :=
    (List.perm_insertionSort blexLE (helpersList G ++ G)).mem_iff.mp hx
  rcases List.mem_append.mp hx' with hh | hgm
  · rw [mem_helpersList (hG_of_range hge h63)] at hh
    obtain ⟨⟨g, hgG, y, ⟨k, hgk, hy2⟩, hsy⟩, -⟩ := hh
    have hpdiv : g / 2 ^ (k + 1) = y / 2 := by
      rw [pow_succ, ← Nat.div_div_eq_div_mul, hgk]
    obtain ⟨l, r, hn⟩ := subtreeAt_anc_node (k + 1) g (y / 2) (by omega) hpdiv
      (by omega) ((hG_of_range hge h63) g hgG).2 (hvalid g hgG)
    have hyg : y ≤ g := by
      rw [← hgk]
      exact Nat.div_le_self _ _
    have hg63 := h63 g hgG
    obtain ⟨hcl, hcr⟩ := subtreeAt_children (by omega) (by omega) hn
    have hxp : x / 2 = y / 2 := by
      have h := div_chain_of_sibling (le_refl 1) hsy.symm
      simpa using h
    rcases Nat.mod_two_eq_zero_or_one x with hm | hm
    · have hx2 : x = 2 * (y / 2) := by omega
      rw [hx2, hcl]
      rfl
    · have hx2 : x = 2 * (y / 2) + 1 := by omega
      rw [hx2, hcr]
      rfl
  · exact hvalid x hgm

theorem zipMaskFilter {α : Type} (v : Nat → α) (mk : Nat → Bool) :
    ∀ L : List Nat,
      ((L.zip (L.map v)).zip (L.map mk)).filterMap
        (fun p => if p.2 then some p.1 else none) =
      (L.filter mk).map (fun x => (x, v x))
  | [] => rfl
  | a :: as => by
    simp only [List.map_cons, List.zip_cons_cons, List.filterMap_cons,
      List.filter_cons]
    cases hmk : mk a <;> simp [hmk, zipMaskFilter v mk as]

theorem filter_gidxList_eq_sortBlex {α : Type} (H : α → α → α) (dflt : α)
    (t : MTree α) (G : List Nat) (hnd : G.Nodup) (hne : G ≠ [])
    (hge : ∀ g ∈ G, 2 ≤ g) (h63 : ∀ g ∈ G, g < 2 ^ 63)
    (hanti : ∀ g ∈ G, ∀ g' ∈ G, ∀ k, 1 ≤ k → g' / 2 ^ k ≠ g) :
    ((theVT H dflt t G).gidxList 1).filter (fun x => decide (x ∈ G)) =
      sortBlex G := by
  have hbound := theVT_gidx_bound H dflt t G hne hge h63 hanti
  have hsortLT := gidxList_sorted (theVT H dflt t G) 1 (by omega) hbound
  have hsortLE : List.Sorted blexLE ((theVT H dflt t G).gidxList 1) :=
    hsortLT.imp (fun h => blexLE_of_lt h)
  have hfs : List.Sorted blexLE
      (((theVT H dflt t G).gidxList 1).filter (fun x => decide (x ∈ G))) :=
    List.Pairwise.filter _ hsortLE
  have hnodupG := gidxList_nodup (s := theVT H dflt t G) (g := 1) (by omega) hbound
  have hfn : (((theVT H dflt t G).gidxList 1).filter
      (fun x => decide (x ∈ G))).Nodup := hnodupG.filter _
  have hsn : (sortBlex G).Nodup :=
    (List.perm_insertionSort blexLE G).nodup_iff.mpr hnd
  refine List.eq_of_perm_of_sorted ?_ hfs (List.sorted_insertionSort blexLE G)
  refine (List.perm_ext_iff_of_nodup hfn hsn).mpr (fun a => ?_)
  rw [List.mem_filter]
  simp only [decide_eq_true_eq]
  rw [sortBlex, (List.perm_insertionSort blexLE G).mem_iff]
  constructor
  · rintro ⟨-, h⟩
    exact h
  · intro h
    exact ⟨(theVT_gidx_mem H dflt t G hne hge h63 hanti a).mpr (Or.inr h), h⟩

theorem theVT_br {α : Type} (H : α → α → α) (dflt : α) (t : MTree α)
    (G : List Nat) (h1 : 1 ∈ ancList G) :
    ∃ l r, theVT H dflt t G = VTree.br l r :=
  ⟨buildVT H t dflt (ancList G) (supList (ancList G)) 2,
   buildVT H t dflt (ancList G) (supList (ancList G)) 3, by
     simp [theVT, buildVT, h1]⟩

/-- **C1** (amended).  For a container tree `t` and a finite *antichain* `G`
of gindices valid for `t` (no duplicates, none the root, none an ancestor of
another, all within the 63-bit range of a child gindex), the multiproof
produced by `MultiproofBuilder::build` verifies successfully against
`hash_tree_root(t)`, and its `values()` iterator yields each `g ∈ G` exactly
once, in tree pre-order (binary-lexicographic order of the gindices), paired
with the node of `t` at `g`.  (The original claim, quantified over arbitrary
sets of valid gindices, is refuted by `builder_roundtrip_fails_on_nested`:
when one requested gindex is an ancestor of another, the built proof is
rejected by `verify`.) -/
theorem builder_roundtrip {α : Type} [DecidableEq α] (H : α → α → α) (dflt : α)
    (t : MTree α) (G : List Nat) (hnd : G.Nodup) (hne : G ≠ [])
    (hge : ∀ g ∈ G, 2 ≤ g) (h63 : ∀ g ∈ G, g < 2 ^ 63)
    (hanti : ∀ g ∈ G, ∀ g' ∈ G, ∀ k, 1 ≤ k → g' / 2 ^ k ≠ g)
    (hvalid : ∀ g ∈ G, (subtreeAt t g).isSome) :
    ∃ mp : MP α, buildMultiproof H dflt t G = some mp ∧
      mp.verify H (t.rootHash H) = VerifyResult.ok ∧
      mp.valuesList =
        (sortBlex G).map (fun g => (g, (valueAt H t g).getD dflt)) := by
  have hpi := proofIndices_eq_gidxList H dflt t G hnd hne hge h63 hanti
  have hbound := theVT_gidx_bound H dflt t G hne hge h63 hanti
  have hdesc : compute_proof_descriptor (proofIndices G) =
      (theVT H dflt t G).serial := by
    rw [hpi]
    exact serial_eq_descriptor _ hbound
  have hall : (proofIndices G).all (fun g => (subtreeAt t g).isSome) = true := by
    rw [List.all_eq_true]
    intro g hg
    simpa using proofIndices_valid hge h63 hvalid g hg
  obtain ⟨d, hd⟩ : ∃ d, calculate_max_stack_depth
      (compute_proof_descriptor (proofIndices G)) = some d := by
    rw [hdesc]
    exact calculate_max_stack_depth_serial _
  refine ⟨{ data := (proofIndices G).map (fun g => (valueAt H t g).getD dflt),
            value_mask := (proofIndices G).map (fun x => decide (x ∈ G)),
            descriptor := compute_proof_descriptor (proofIndices G),
            max_stack_depth := d }, ?_, ?_, ?_⟩
  · simp only [buildMultiproof, hall, hd, if_true]
  · obtain ⟨l, r, hbr⟩ := theVT_br H dflt t G (one_mem_ancList hne hge h63)
    have hdata : (proofIndices G).map (fun g => (valueAt H t g).getD dflt) =
        (theVT H dflt t G).leaves := by
      rw [hpi]
      exact (buildVT_leaves H t dflt (ancList G) (supList (ancList G) + 1) 1).symm
    have hcalc : calcRootStack H
        ((proofIndices G).map (fun g => (valueAt H t g).getD dflt))
        (compute_proof_descriptor (proofIndices G)) =
        CalcResult.ok ((theVT H dflt t G).rootVal H) := by
      rw [hdata, hdesc, hbr]
      have h := calcRootStack_serial_br H l r []
      rw [List.append_nil] at h
      exact h
    have hroot : (theVT H dflt t G).rootVal H = t.rootHash H := by
      have h := buildVT_rootVal H t dflt (ancList G)
        (ancList_nodes hge h63 hvalid) (supList_ancList_lt hge h63)
        (supList (ancList G) + 1) 1 (by omega) (by rw [subtreeAt_one]; rfl)
      rw [theVT, h]
      simp [valueAt, subtreeAt_one]
    show (MP.verify H _ _) = _
    rw [MP.verify, MP.calcRoot]
    dsimp only
    rw [hcalc, hroot]
    simp
  · show ((MP.nodesList _).zip _).filterMap _ = _
    rw [MP.nodesList]
    dsimp only
    have hgr : gIterRun (compute_proof_descriptor (proofIndices G)) =
        proofIndices G := by
      rw [hdesc, gIterRun_serial, hpi]
    rw [hgr, zipMaskFilter, hpi,
      filter_gidxList_eq_sortBlex H dflt t G hnd hne hge h63 hanti]

theorem div_pow_le_div_two {g k : Nat} (hk : 1 ≤ k) : g / 2 ^ k ≤ g / 2 := by
  calc g / 2 ^ k = g / 2 / 2 ^ (k - 1) := by
        rw [Nat.div_div_eq_div_mul, ← pow_succ', show k - 1 + 1 = k by omega]
    _ ≤ g / 2 := Nat.div_le_self _ _

/-- A concrete three-leaf container (`hash` taken as the Cantor pairing, which
is injective, so distinct trees have distinct roots). -/
def tEx : MTree Nat :=
  MTree.node (MTree.node (MTree.leaf 0) (MTree.leaf 1)) (MTree.leaf 2)

/-- **C1** (counterexample to the original claim).  `G = {2, 4}` is a set of
gindices valid for the container `tEx`, yet the multiproof built for it is
rejected by `verify` (the computed root differs from the container root), and
its `values()` do not pair the requested gindices with the container's leaves:
gindex 4 is reported as 12.  The requested set must be an antichain; here
gindex 4 lies below gindex 2. -/
theorem builder_roundtrip_fails_on_nested :
    (∀ g ∈ [2, 4], (subtreeAt tEx g).isSome) ∧
    (buildMultiproof Nat.pair 0 tEx [2, 4]).map
      (fun mp => mp.verify Nat.pair (tEx.rootHash Nat.pair)) =
      some VerifyResult.rootMismatch ∧
    (buildMultiproof Nat.pair 0 tEx [2, 4]).map (fun mp => mp.valuesList) =
      some [(2, 1), (12, 0)] := by
  decide

/-- **C1** witness: the amended round-trip at the concrete antichain
`G = {4, 5, 3}` on `tEx`. -/
theorem builder_roundtrip_witness :
    ∃ mp : MP Nat, buildMultiproof Nat.pair 0 tEx [4, 5, 3] = some mp ∧
      mp.verify Nat.pair (tEx.rootHash Nat.pair) = VerifyResult.ok ∧
      mp.valuesList = (sortBlex [4, 5, 3]).map
        (fun g => (g, (valueAt Nat.pair tEx g).getD 0)) :=
  builder_roundtrip Nat.pair 0 tEx [4, 5, 3] (by decide) (by decide) (by decide)
    (by decide)
    (by
      intro g hg g' hg' k hk hEq
      have h2 : g' / 2 ^ k ≤ g' / 2 := div_pow_le_div_two hk
      rw [hEq] at h2
      have h5 : g' ≤ 5 := by fin_cases hg' <;> norm_num
      have h3 : 3 ≤ g := by fin_cases hg <;> norm_num
      omega)
    (by decide)

/-- **C4** (amended).  The current stack machine
(`calculate_compact_multi_merkle_root`, multiproof.rs) returns the computed
root when the descriptor serializes a single (branching) proof shape and the
data supplies the described nodes — leftover data beyond those nodes is
*ignored*, not rejected; when the reduction finishes with stack length ≠ 1
(e.g. a descriptor serializing two trees) it *panics* instead of returning
`InvalidProof`.  Only the earlier recursive revision
(`Multiproof::calculate_root`, multiproof_builder.rs) returns `InvalidProof`
on leftover descriptor bits or leftover nodes. -/
theorem calc_root_termination {α : Type} (H : α → α → α) :
    (∀ (l r : VTree α) (extra : List α),
      calcRootStack H ((VTree.br l r).leaves ++ extra) (VTree.br l r).serial =
        CalcResult.ok ((VTree.br l r).rootVal H)) ∧
    (∀ s1 s2 : VTree α,
      calcRootStack H (s1.leaves ++ s2.leaves) (s1.serial ++ s2.serial) =
        CalcResult.panicked) ∧
    (∀ s : VTree α,
      calcRootRec H s.leaves s.serial = CalcResult.ok (s.rootVal H)) ∧
    (∀ (s : VTree α) (eb : List Bool) (en : List α), eb ≠ [] ∨ en ≠ [] →
      calcRootRec H (s.leaves ++ en) (s.serial ++ eb) =
        CalcResult.invalidProof) :=
  ⟨fun l r extra => calcRootStack_serial_br H l r extra,
   fun s1 s2 => calcRootStack_two H s1 s2,
   fun s => calcRootRec_exact H s,
   fun s eb en h => calcRootRec_leftover H s eb en h⟩

/-- **C4** (counterexample to the original claim).  A descriptor describing a
two-node tree with three data nodes supplied: the stack machine returns `Ok`
(the leftover node is ignored, not an `InvalidProof`), where the earlier
recursive verifier returned `InvalidProof`; and a descriptor serializing two
complete trees makes the stack machine panic instead of returning
`InvalidProof`. -/
theorem calc_root_leftover_counterexample :
    calcRootStack Nat.pair [1, 2, 3] [false, true, true] =
      CalcResult.ok (Nat.pair 1 2) ∧
    calcRootRec Nat.pair [1, 2, 3] [false, true, true] =
      CalcResult.invalidProof ∧
    calcRootStack Nat.pair [1, 2] [true, true] = CalcResult.panicked := by
  decide

/-- **C9**.  For every well-formed descriptor (the pre-order serialization of
a proof shape), the gindex iterator of multiproof.rs reconstructs the
pre-order sequence of provided-node gindices by the deferred-right-subtree
stack walk; in particular, for the descriptor `[0,0,1,0,0,1,0,1,1,1,1]` it
emits exactly `4, 20, 42, 43, 11, 3`. -/
theorem gindex_iterator_preorder :
    (∀ (s : VTree Unit), gIterRun s.serial = s.gidxList 1) ∧
    gIterRun [false, false, true, false, false, true, false, true, true,
      true, true] = [4, 20, 42, 43, 11, 3] :=
  ⟨fun s => gIterRun_serial s, by decide⟩

/-! ### The gindex catalog (crates/gindices)

The post-electra base constants are produced at build time by
crates/gindices/build.rs from the canonical Electra `BeaconState` schema; the
generated file is not part of the repository.  Modelled from the spec: the
Electra `BeaconState` container has 37 fields (64 chunks, field `i` at gindex
`64 + i`): `validators` is field 11 (gindex 75, a list, so its length sits at
`2*75 + 1 = 151` and its data root at `150`, with `2^40` validator elements of
8 fields each), `balances` is field 12 (data root `152`, `2^38` packed
chunks), `state_roots` field 6 (vector of `2^13` roots below gindex 70),
`historical_summaries` field 27 (list data root `182` over `2^24` elements).
The closed-form functions below follow crates/gindices/src/lib.rs
(`base + index * 8`, `base + index / 4`, `base + slot % 8192`, etc.); only the
numeric bases are modelled.  `historical_batch::state_roots` is fully in the
source (`24576 + slot % SLOTS_PER_HISTORICAL_ROOT`). -/

def SLOTS_PER_HISTORICAL_ROOT : Nat := 8192

def CAPELLA_FORK_SLOT : Nat := 6209536

def validator_count : Nat := 151

def validator_withdrawal_credentials (v : Nat) : Nat := 150 * 2 ^ 43 + 8 * v + 1

def validator_exit_epoch (v : Nat) : Nat := 150 * 2 ^ 43 + 8 * v + 6

def validator_balance (v : Nat) : Nat := 152 * 2 ^ 38 + v / 4

def state_roots_gindex (slot : Nat) : Nat := 573440 + slot % SLOTS_PER_HISTORICAL_ROOT

/-- `historical_summaries` asserts `slot >= CAPELLA_FORK_SLOT` in the source;
the engines guard the call accordingly. -/
def historical_summaries (slot : Nat) : Nat :=
  3053453312 + (slot - CAPELLA_FORK_SLOT) / SLOTS_PER_HISTORICAL_ROOT

def historical_batch_state_roots (slot : Nat) : Nat :=
  24576 + slot % SLOTS_PER_HISTORICAL_ROOT

/-! ### The oracle and membership engines (crates/core)

A `Node` is a 32-byte chunk, as a byte list.  The guest consumes multiproof
values through `ValueIterator`; a consumed iterator is a list of
`(gindex, node)` pairs. -/

abbrev Node := List Nat

/-- `ssz_multiproofs::Error` variants surfaced through the value iterator. -/
inductive VErr where
  | MissingValue
  | GIndexMismatch (expected actual : Nat)
deriving DecidableEq

deriving instance DecidableEq for Except

/-- `ValueIterator::next_assert_gindex` (multiproof.rs lines 135-145). -/
def next_assert_gindex (vs : List (Nat × Node)) (gindex : Nat) :
    Except VErr (Node × List (Nat × Node)) :=
  match vs with
  | [] => .error .MissingValue
  | (g, node) :: rest =>
    if g = gindex then .ok (node, rest)
    else .error (.GIndexMismatch gindex g)

/-- `u64_from_b256` (core lib.rs lines 87-89): little-endian `u64` from the
8-byte slice at `pos`. -/
def leU64 : List Nat → Nat
  | [] => 0
  | b :: bs => b % 256 + 256 * leU64 bs

def u64_from_b256 (node : Node) (pos : Nat) : Nat :=
  leU64 ((node.drop (pos * 8)).take 8)

/-- `BitVec::iter_ones`: indices of the set bits, in order. -/
def onesFrom : List Bool → Nat → List Nat
  | [], _ => []
  | b :: bs, i => if b then i :: onesFrom bs (i + 1) else onesFrom bs (i + 1)

def iterOnes (m : List Bool) : List Nat := onesFrom m 0

/-- The withdrawal-credentials scan loop shared by generate_report.rs lines
131-136 and membership/mod.rs lines 98-103: `count` iterations starting at
validator index `v`, each appending `value == withdrawal_credentials`. -/
def wcScan (wcred : Node) : Nat → Nat → List (Nat × Node) → List Bool →
    Except VErr (List Bool × List (Nat × Node))
  | 0, _, vs, acc => .ok (acc, vs)
  | c + 1, v, vs, acc =>
    match next_assert_gindex vs (validator_withdrawal_credentials v) with
    | .error e => .error e
    | .ok (node, rest) => wcScan wcred c (v + 1) rest (acc ++ [decide (node = wcred)])

/-- The tail of `update_membership` (membership/mod.rs lines 89-105): read
`validator_count` from the iterator, then scan `(membership.len() as u64 + 1)
.. n_validators`. -/
def update_membership_scan (wcred : Node) (prior : List Bool)
    (vs : List (Nat × Node)) : Except VErr (List Bool) :=
  match next_assert_gindex vs validator_count with
  | .error e => .error e
  | .ok (node, rest) =>
    match wcScan wcred (u64_from_b256 node 0 - (prior.length + 1))
        (prior.length + 1) rest prior with
    | .error e => .error e
    | .ok (mem, _) => .ok mem

/-- `count_exited_validators` (generate_report.rs lines 178-197): for each set
bit, read the exit-epoch leaf at the next expected gindex and count those with
`exit_epoch <= slot / 32`. -/
def countExited (slot : Nat) : List Nat → List (Nat × Node) → Nat →
    Except VErr (Nat × List (Nat × Node))
  | [], vs, acc => .ok (acc, vs)
  | v :: rest, vs, acc =>
    match next_assert_gindex vs (validator_exit_epoch v) with
    | .error e => .error e
    | .ok (node, vs1) =>
      countExited slot rest vs1
        (if u64_from_b256 node 0 ≤ slot / 32 then acc + 1 else acc)

def zeros32 : Node := List.replicate 32 0

/-- `accumulate_balances` (generate_report.rs lines 199-220): keep a current
packed leaf, advance the iterator only when the expected balance gindex
differs, `assert_eq!` the gindex, and add the `u64` at lane `v % 4` (with
`u64` wrap-around).  `none` models the `expect`/`assert_eq!` panics. -/
def accBalances : List Nat → List (Nat × Node) → (Nat × Node) → Nat →
    Option (Nat × List (Nat × Node))
  | [], vs, _, acc => some (acc, vs)
  | v :: rest, vs, cur, acc =>
    if cur.1 ≠ validator_balance v then
      match vs with
      | [] => none
      | leaf :: vs1 =>
        if leaf.1 = validator_balance v then
          accBalances rest vs1 leaf
            ((acc + u64_from_b256 leaf.2 (v % 4)) % 2 ^ 64)
        else none
    else
      accBalances rest vs cur ((acc + u64_from_b256 cur.2 (v % 4)) % 2 ^ 64)

/-- The distinct-leaf subsequence the balance loop draws from the iterator:
the expected gindices with consecutive repeats of the current one dropped. -/
def destutterFrom (g0 : Nat) : List Nat → List Nat
  | [] => []
  | a :: as => if a = g0 then destutterFrom g0 as else a :: destutterFrom a as

/-- Value-consumption outcomes of the oracle engine: `?`-propagated iterator
errors are `gErr`, `unwrap`/`expect`/`assert_eq!` failures are `panicked`. -/
inductive EngineOut where
  | ok (membership : List Bool) (exited : Nat) (clBalance : Nat)
  | gErr (e : VErr)
  | panicked
deriving DecidableEq

/-- The value consumption of `generate_oracle_report` after the continuation
checks (generate_report.rs lines 121-146): scan withdrawal credentials for
`membership.len() .. n_validators` (errors propagate with `?`), count exited
validators (`unwrap`), slurp the `validator_count` leaf (`expect`), then
accumulate balances. -/
def report_values (wcred : Node) (slot n : Nat) (prior : List Bool)
    (vs : List (Nat × Node)) : EngineOut :=
  match wcScan wcred (n - prior.length) prior.length vs prior with
  | .error e => .gErr e
  | .ok (mem, vs1) =>
    match countExited slot (iterOnes mem) vs1 0 with
    | .error _ => .panicked
    | .ok (exited, vs2) =>
      match next_assert_gindex vs2 validator_count with
      | .error _ => .panicked
      | .ok (_, vs3) =>
        match accBalances (iterOnes mem) vs3 (0, zeros32) 0 with
        | none => .panicked
        | some (bal, _) => .ok mem exited bal

/-! ### Membership-commitment hashing (`hash_bitvec`,
generate_report.rs lines 224-235)

The SHA-256 pre-image is the 8-byte little-endian bit length followed by the
bitvector's `u32` backing words, each little-endian. -/

def leBytes : Nat → Nat → List Nat
  | 0, _ => []
  | k + 1, n => n % 256 :: leBytes k (n / 256)

/-- The value of an Lsb0 bit chunk. -/
def wordOf (bits : List Bool) : Nat :=
  bits.foldr (fun b acc => 2 * acc + (if b then 1 else 0)) 0

def toWordsGo : Nat → List Bool → List Nat
  | 0, _ => []
  | k + 1, bs => wordOf (bs.take 32) :: toWordsGo k (bs.drop 32)

/-- The `u32` backing words of a `BitVec<u32, Lsb0>`. -/
def toWords (bs : List Bool) : List Nat := toWordsGo ((bs.length + 31) / 32) bs

def hashPreimage (m : List Bool) : List Nat :=
  leBytes 8 m.length ++ (toWords m).flatMap (leBytes 4)

/-- `hash_bitvec`, with SHA-256 abstracted as `sha`. -/
def hash_bitvec (sha : List Nat → Node) (m : List Bool) : Node :=
  sha (hashPreimage m)

/-! ### The prior-receipt journal check
(generate_report.rs lines 109-117) -/

/-- The ABI journal of the oracle guest (journal.rs / Journal.sol). -/
structure OJournal where
  blockRoot : Nat
  clBalanceGwei : Nat
  withdrawalVaultBalanceWei : Nat
  totalDepositedValidators : Nat
  totalExitedValidators : Nat
  commitment : Nat
  membershipCommitment : Node
deriving DecidableEq

inductive CheckOut where
  | ok
  | panicked
deriving DecidableEq

/-- The continuation's prior-receipt check: ABI-decode the prior journal
(`expect`), `assert_eq!` its `membershipCommitment` against
`hash_bitvec(prior_membership)`, and verify the receipt against
`self_program_id` (`expect`).  No other journal field is read. -/
def priorReceiptCheck (decode : List Nat → Option OJournal)
    (rv : List Nat → Nat → Bool) (sha : List Nat → Node)
    (journalBytes : List Nat) (self_program_id : Nat)
    (prior_membership : List Bool) : CheckOut :=
  match decode journalBytes with
  | none => .panicked
  | some j =>
    if j.membershipCommitment = hash_bitvec sha prior_membership then
      if rv journalBytes self_program_id then .ok else .panicked
    else .panicked

/-! ### The long-range continuation linkage
(membership/mod.rs lines 47-64, generate_report.rs lines 90-106,
membership/io.rs lines 96-111) -/

inductive CoreErr where
  | MissingHistoricalBatch
deriving DecidableEq

inductive LRResult where
  | ok
  | panicked
deriving DecidableEq

/-- The `LongRange` arm of `update_membership`: a missing historical-summary
multiproof, a failed `get`/`verify`, and a stored root different from
`prior_state_root` are all panics (`expect`/`unwrap`/`assert_eq!`), as is the
`historical_summaries` assertion for a pre-Capella slot. -/
def longRangeCheck {α : Type} [DecidableEq α] (H : α → α → α) (stateMP : MP α)
    (hist : Option (MP α)) (prior_slot : Nat) (prior_state_root : α) :
    LRResult :=
  match hist with
  | none => .panicked
  | some histMP =>
    if prior_slot < CAPELLA_FORK_SLOT then .panicked
    else
      match stateMP.get (historical_summaries prior_slot) with
      | none => .panicked
      | some summary_root =>
        match histMP.verify H summary_root with
        | .ok =>
          match histMP.get (historical_batch_state_roots prior_slot) with
          | none => .panicked
          | some stored =>
            if stored = prior_state_root then .ok else .panicked
        | _ => .panicked

/-- The continuation-type selection of the input builder
(`Input::build_continuation`, membership/io.rs lines 96-111): only the
*builder* returns `Error::MissingHistoricalBatch`, when the range is long and
no `HistoricalBatch` is available.  `β` stands for the supplied batch. -/
def contTypeSel {β : Type} (slot prior_slot : Nat) (batch : Option β) :
    Except CoreErr (Option β) :=
  if slot = prior_slot then .ok none
  else if slot ≤ prior_slot + SLOTS_PER_HISTORICAL_ROOT then .ok none
  else
    match batch with
    | some b => .ok (some b)
    | none => .error .MissingHistoricalBatch

/-! ### Run lemmas for the engine loops -/

theorem wcScan_run (wcred : Node) (leafAt : Nat → Node) :
    ∀ (c v : Nat) (rest : List (Nat × Node)) (acc : List Bool),
      wcScan wcred c v
        (((List.range' v c).map (fun u =>
          (validator_withdrawal_credentials u,
           leafAt (validator_withdrawal_credentials u)))) ++ rest) acc =
      .ok (acc ++ (List.range' v c).map (fun u =>
        decide (leafAt (validator_withdrawal_credentials u) = wcred)), rest) := by
  intro c
  induction c with
  | zero =>
    intro v rest acc
    simp [wcScan]
  | succ c ih =>
    intro v rest acc
    rw [List.range'_succ]
    simp only [List.map_cons, List.cons_append]
    rw [show wcScan wcred (c + 1) v
        ((validator_withdrawal_credentials v,
          leafAt (validator_withdrawal_credentials v)) ::
         ((List.range' (v + 1) c).map (fun u =>
           (validator_withdrawal_credentials u,
            leafAt (validator_withdrawal_credentials u))) ++ rest)) acc =
        wcScan wcred c (v + 1)
          ((List.range' (v + 1) c).map (fun u =>
            (validator_withdrawal_credentials u,
             leafAt (validator_withdrawal_credentials u))) ++ rest)
          (acc ++ [decide (leafAt (validator_withdrawal_credentials v) = wcred)])
      from by simp [wcScan, next_assert_gindex]]
    rw [ih]
    simp

theorem countExited_run (leafAt : Nat → Node) (slot : Nat) :
    ∀ (ones : List Nat) (rest : List (Nat × Node)) (acc : Nat),
      countExited slot ones
        ((ones.map (fun v =>
          (validator_exit_epoch v, leafAt (validator_exit_epoch v)))) ++ rest)
        acc =
      .ok (acc + (ones.filter (fun v =>
        decide (u64_from_b256 (leafAt (validator_exit_epoch v)) 0 ≤
          slot / 32))).length, rest) := by
  intro ones
  induction ones with
  | nil =>
    intro rest acc
    simp [countExited]
  | cons v os ih =>
    intro rest acc
    simp only [List.map_cons, List.cons_append]
    rw [show countExited slot (v :: os)
        ((validator_exit_epoch v, leafAt (validator_exit_epoch v)) ::
         (os.map (fun u =>
           (validator_exit_epoch u, leafAt (validator_exit_epoch u))) ++ rest))
        acc =
        countExited slot os
          (os.map (fun u =>
            (validator_exit_epoch u, leafAt (validator_exit_epoch u))) ++ rest)
          (if u64_from_b256 (leafAt (validator_exit_epoch v)) 0 ≤ slot / 32
            then acc + 1 else acc)
      from by simp [countExited, next_assert_gindex]]
    rw [ih]
    by_cases hc : u64_from_b256 (leafAt (validator_exit_epoch v)) 0 ≤ slot / 32
    · rw [if_pos hc]
      have hd : decide (u64_from_b256 (leafAt (validator_exit_epoch v)) 0 ≤
          slot / 32) = true := decide_eq_true hc
      simp only [List.filter_cons, hd, if_true, List.length_cons]
      congr 2
      omega
    · rw [if_neg hc]
      have hd : decide (u64_from_b256 (leafAt (validator_exit_epoch v)) 0 ≤
          slot / 32) = false := decide_eq_false hc
      simp [List.filter_cons, hd]

theorem accBalances_run (leafAt : Nat → Node) :
    ∀ (ones : List Nat) (g0 : Nat) (nd0 : Node) (acc : Nat)
      (rest : List (Nat × Node)),
      (nd0 = leafAt g0 ∨ ∀ v ∈ ones, validator_balance v ≠ g0) →
      accBalances ones
        ((destutterFrom g0 (ones.map validator_balance)).map
          (fun g => (g, leafAt g)) ++ rest) (g0, nd0) acc =
      some (ones.foldl (fun a v =>
        (a + u64_from_b256 (leafAt (validator_balance v)) (v % 4)) % 2 ^ 64)
        acc, rest) := by
  intro ones
  induction ones with
  | nil =>
    intro g0 nd0 acc rest _
    simp [accBalances, destutterFrom]
  | cons v os ih =>
    intro g0 nd0 acc rest hnd
    simp only [List.map_cons, List.foldl_cons]
    by_cases he : validator_balance v = g0
    · have hnd0 : nd0 = leafAt g0 := by
        rcases hnd with h | h
        · exact h
        · exact absurd he (h v (List.mem_cons_self v os))
      rw [show destutterFrom g0 (validator_balance v :: os.map validator_balance) =
          destutterFrom g0 (os.map validator_balance) from by
        simp [destutterFrom, he]]
      rw [show accBalances (v :: os)
          ((destutterFrom g0 (os.map validator_balance)).map
            (fun g => (g, leafAt g)) ++ rest) (g0, nd0) acc =
          accBalances os
            ((destutterFrom g0 (os.map validator_balance)).map
              (fun g => (g, leafAt g)) ++ rest) (g0, nd0)
            ((acc + u64_from_b256 nd0 (v % 4)) % 2 ^ 64)
        from by
          simp only [accBalances]
          rw [if_neg (show ¬((g0, nd0).1 ≠ validator_balance v) from
            fun hco => hco he.symm)]]
      rw [ih g0 nd0 _ rest (Or.inl hnd0), hnd0, he]
    · rw [show destutterFrom g0 (validator_balance v :: os.map validator_balance) =
          validator_balance v ::
            destutterFrom (validator_balance v) (os.map validator_balance)
        from by simp [destutterFrom, he]]
      simp only [List.map_cons, List.cons_append]
      rw [show accBalances (v :: os)
          ((validator_balance v, leafAt (validator_balance v)) ::
           ((destutterFrom (validator_balance v)
             (os.map validator_balance)).map (fun g => (g, leafAt g)) ++ rest))
          (g0, nd0) acc =
          accBalances os
            ((destutterFrom (validator_balance v)
              (os.map validator_balance)).map (fun g => (g, leafAt g)) ++ rest)
            (validator_balance v, leafAt (validator_balance v))
            ((acc + u64_from_b256 (leafAt (validator_balance v)) (v % 4)) % 2 ^ 64)
        from by
          simp only [accBalances]
          rw [if_pos (show ((g0, nd0).1 ≠ validator_balance v) from
            fun h => he h.symm), if_pos trivial]]
      rw [ih (validator_balance v) (leafAt (validator_balance v)) _ rest
        (Or.inl rfl)]

theorem validator_balance_pos (v : Nat) : validator_balance v ≠ 0 := by
  unfold validator_balance
  omega

/-- A 32-byte chunk carrying the little-endian `u64` `e` in its first lane. -/
def epochNode (e : Nat) : Node := leBytes 8 e ++ List.replicate 24 0

/-- **C5**.  `accumulate_balances` sums, over the set membership bits `v`, the
little-endian `u64` in lane `v % 4` of the leaf at gindex
`validator_balance(v) = BAL_BASE + v / 4` (with `u64` wrap-around); the
iterator advances exactly once per distinct balance gindex — the supplied
stream is consumed exactly through the destuttered gindex sequence, with the
remainder untouched — and a supplied leaf whose gindex differs from the
expected one is fatal (`assert_eq!`, modelled `none`). -/
theorem accumulate_balances_spec (leafAt : Nat → Node) :
    (∀ (m : List Bool) (acc : Nat) (rest : List (Nat × Node)),
      accBalances (iterOnes m)
        ((destutterFrom 0 ((iterOnes m).map validator_balance)).map
          (fun g => (g, leafAt g)) ++ rest) (0, zeros32) acc =
      some ((iterOnes m).foldl (fun a v =>
        (a + u64_from_b256 (leafAt (validator_balance v)) (v % 4)) % 2 ^ 64)
        acc, rest)) ∧
    (∀ (v : Nat) (ones : List Nat) (g : Nat) (nd : Node)
      (vs : List (Nat × Node)) (acc : Nat), g ≠ validator_balance v →
      accBalances (v :: ones) ((g, nd) :: vs) (0, zeros32) acc = none) ∧
    (∀ v, validator_balance v = 152 * 2 ^ 38 + v / 4) := by
  refine ⟨?_, ?_, fun v => rfl⟩
  · intro m acc rest
    exact accBalances_run leafAt (iterOnes m) 0 zeros32 acc rest
      (Or.inr (fun v _ => validator_balance_pos v))
  · intro v ones g nd vs acc hg
    simp only [accBalances]
    rw [if_pos (show (0, zeros32).1 ≠ validator_balance v from
      fun h => validator_balance_pos v h.symm)]
    rw [if_neg (show ¬((g, nd).1 = validator_balance v) from hg)]

/-- **C6**.  `count_exited_validators` returns the number of set membership
bits `v` whose exit-epoch leaf (the little-endian `u64` in the first 8 bytes
of the leaf at gindex `validator_exit_epoch(v)`, consumed in set-bit order)
satisfies `exit_epoch <= slot / 32`; in particular (slot `6400`, current epoch
`200`) a validator with exit epoch `100` or `200` is counted and one with
exit epoch `201` is not. -/
theorem count_exited_spec (leafAt : Nat → Node) :
    (∀ (slot : Nat) (m : List Bool) (acc : Nat) (rest : List (Nat × Node)),
      countExited slot (iterOnes m)
        (((iterOnes m).map (fun v =>
          (validator_exit_epoch v, leafAt (validator_exit_epoch v)))) ++ rest)
        acc =
      .ok (acc + ((iterOnes m).filter (fun v =>
        decide (u64_from_b256 (leafAt (validator_exit_epoch v)) 0 ≤
          slot / 32))).length, rest)) ∧
    countExited 6400 (iterOnes [true, true, true])
      [(validator_exit_epoch 0, epochNode 100),
       (validator_exit_epoch 1, epochNode 200),
       (validator_exit_epoch 2, epochNode 201)] 0 = .ok (2, []) := by
  refine ⟨?_, by decide⟩
  intro slot m acc rest
  exact countExited_run leafAt slot (iterOnes m) rest acc

/-! ### Injectivity of the little-endian length prefix -/

theorem leBytes_length : ∀ (k n : Nat), (leBytes k n).length = k
  | 0, _ => rfl
  | k + 1, n => by
    simp only [leBytes, List.length_cons, leBytes_length k]

theorem leBytes_inj : ∀ (k a b : Nat), a < 2 ^ (8 * k) → b < 2 ^ (8 * k) →
    leBytes k a = leBytes k b → a = b
  | 0, a, b, ha, hb, _ => by
    simp only [Nat.mul_zero, pow_zero] at ha hb
    omega
  | k + 1, a, b, ha, hb, h => by
    simp only [leBytes, List.cons.injEq] at h
    obtain ⟨h1, h2⟩ := h
    have hp : 2 ^ (8 * (k + 1)) = 2 ^ (8 * k) * 256 := by
      rw [show 8 * (k + 1) = 8 * k + 8 by ring, pow_add]
      norm_num
    rw [hp] at ha hb
    have h3 := leBytes_inj k (a / 256) (b / 256) (by omega) (by omega) h2
    omega

theorem hashPreimage_take8 (m : List Bool) :
    (hashPreimage m).take 8 = leBytes 8 m.length := by
  unfold hashPreimage
  have hl : (leBytes 8 m.length).length = 8 := leBytes_length 8 _
  calc (leBytes 8 m.length ++ (toWords m).flatMap (leBytes 4)).take 8
      = (leBytes 8 m.length ++ (toWords m).flatMap (leBytes 4)).take
          (leBytes 8 m.length).length := by rw [hl]
    _ = leBytes 8 m.length := List.take_left _ _

/-- **C7**.  The membership commitment is SHA-256 of the 8-byte little-endian
bit length followed by the packed little-endian `u32` words of the bitvector;
because the pre-image starts with the bit length, two bitvectors of different
(`usize`-range) bit lengths always produce distinct pre-images, so the
commitment is not malleable by altering bits above the bit length. -/
theorem hash_bitvec_spec (sha : List Nat → Node) :
    (∀ m : List Bool, hash_bitvec sha m =
      sha (leBytes 8 m.length ++ (toWords m).flatMap (leBytes 4))) ∧
    (∀ m1 m2 : List Bool, m1.length < 2 ^ 64 → m2.length < 2 ^ 64 →
      m1.length ≠ m2.length → hashPreimage m1 ≠ hashPreimage m2) := by
  refine ⟨fun m => rfl, ?_⟩
  intro m1 m2 h1 h2 hne heq
  apply hne
  have ht : (hashPreimage m1).take 8 = (hashPreimage m2).take 8 := by rw [heq]
  rw [hashPreimage_take8, hashPreimage_take8] at ht
  exact leBytes_inj 8 _ _ (by simpa using h1) (by simpa using h2) ht

/-- **C3** (the code's behavior).  The scan of `generate_oracle_report`
(lines 131-136) starts at the current bitvector length and appends, for each
`v` in `[membership.len() .. n_validators)`, the bit
`value == withdrawal_credentials` — bit `i` of its result describes validator
`i`.  The scan of `update_membership` (membership/mod.rs line 98) instead
starts at `membership.len() + 1`: on a stream that (like the builder's)
supplies the leaf for the first unscanned validator `membership.len()` first,
it fails with `GIndexMismatch`; the same stream satisfies the report-style
scan. -/
theorem membership_scan_off_by_one (wcred : Node) (leafAt : Nat → Node) :
    (∀ (prior : List Bool) (n : Nat) (rest : List (Nat × Node)),
      wcScan wcred (n - prior.length) prior.length
        (((List.range' prior.length (n - prior.length)).map (fun u =>
          (validator_withdrawal_credentials u,
           leafAt (validator_withdrawal_credentials u)))) ++ rest) prior =
      .ok (prior ++ (List.range' prior.length (n - prior.length)).map (fun u =>
        decide (leafAt (validator_withdrawal_credentials u) = wcred)), rest)) ∧
    update_membership_scan [1] []
      [(validator_count, epochNode 2),
       (validator_withdrawal_credentials 0, [1]),
       (validator_withdrawal_credentials 1, [1])] =
      .error (.GIndexMismatch (validator_withdrawal_credentials 1)
        (validator_withdrawal_credentials 0)) ∧
    wcScan [1] 2 0
      [(validator_withdrawal_credentials 0, [1]),
       (validator_withdrawal_credentials 1, [1])] [] =
      .ok ([true, true], []) := by
  refine ⟨?_, by decide, by decide⟩
  intro prior n rest
  exact wcScan_run wcred leafAt (n - prior.length) prior.length rest prior

/-! ### The oracle engine's consumption order -/

/-- The membership bitvector after the report scan: the prior bits followed by
one bit per newly scanned validator. -/
def scannedMem (wcred : Node) (leafAt : Nat → Node) (n : Nat)
    (prior : List Bool) : List Bool :=
  prior ++ (List.range' prior.length (n - prior.length)).map (fun u =>
    decide (leafAt (validator_withdrawal_credentials u) = wcred))

/-- The gindex order in which the oracle engine consumes the state
multiproof's values: the withdrawal-credentials range, the exit epochs of the
set bits, the validator count, then the destuttered balance leaves. -/
def engineOrder (n start : Nat) (mem : List Bool) : List Nat :=
  (List.range' start (n - start)).map validator_withdrawal_credentials ++
  ((iterOnes mem).map validator_exit_epoch ++
   (validator_count :: destutterFrom 0 ((iterOnes mem).map validator_balance)))

theorem report_values_run (wcred : Node) (leafAt : Nat → Node) (slot n : Nat)
    (prior : List Bool) :
    report_values wcred slot n prior
      ((engineOrder n prior.length (scannedMem wcred leafAt n prior)).map
        (fun g => (g, leafAt g))) =
    .ok (scannedMem wcred leafAt n prior)
      (((iterOnes (scannedMem wcred leafAt n prior)).filter (fun v =>
        decide (u64_from_b256 (leafAt (validator_exit_epoch v)) 0 ≤
          slot / 32))).length)
      ((iterOnes (scannedMem wcred leafAt n prior)).foldl (fun a v =>
        (a + u64_from_b256 (leafAt (validator_balance v)) (v % 4)) % 2 ^ 64)
        0) := by
  have hstream : (engineOrder n prior.length
      (scannedMem wcred leafAt n prior)).map (fun g => (g, leafAt g)) =
      ((List.range' prior.length (n - prior.length)).map (fun u =>
        (validator_withdrawal_credentials u,
         leafAt (validator_withdrawal_credentials u)))) ++
      (((iterOnes (scannedMem wcred leafAt n prior)).map (fun v =>
        (validator_exit_epoch v, leafAt (validator_exit_epoch v)))) ++
       ((validator_count, leafAt validator_count) ::
        ((destutterFrom 0 ((iterOnes (scannedMem wcred leafAt n prior)).map
          validator_balance)).map (fun g => (g, leafAt g))))) := by
    simp only [engineOrder, List.map_append, List.map_map, List.map_cons]
    rfl
  rw [hstream]
  unfold report_values
  rw [wcScan_run wcred leafAt (n - prior.length) prior.length _ prior]
  rw [show prior ++ (List.range' prior.length (n - prior.length)).map (fun u =>
      decide (leafAt (validator_withdrawal_credentials u) = wcred)) =
      scannedMem wcred leafAt n prior from rfl]
  dsimp only
  rw [countExited_run leafAt slot (iterOnes (scannedMem wcred leafAt n prior))
    _ 0]
  dsimp only
  rw [show next_assert_gindex ((validator_count, leafAt validator_count) ::
      ((destutterFrom 0 ((iterOnes (scannedMem wcred leafAt n prior)).map
        validator_balance)).map (fun g => (g, leafAt g)))) validator_count =
      .ok (leafAt validator_count,
        (destutterFrom 0 ((iterOnes (scannedMem wcred leafAt n prior)).map
          validator_balance)).map (fun g => (g, leafAt g)))
    from by simp [next_assert_gindex]]
  dsimp only
  rw [← List.append_nil ((destutterFrom 0
    ((iterOnes (scannedMem wcred leafAt n prior)).map validator_balance)).map
      (fun g => (g, leafAt g)))]
  rw [accBalances_run leafAt (iterOnes (scannedMem wcred leafAt n prior)) 0
    zeros32 0 [] (Or.inr (fun v _ => validator_balance_pos v))]
  rw [Nat.zero_add]

/-- **C2** (amended).  The oracle engine consumes the state multiproof's value
iterator in the order: the `withdrawal_credentials` leaves for the newly
scanned range, then the `exit_epoch` leaf for each set membership bit, then
the `validator_count` leaf, then the packed balance leaves once per distinct
gindex — and a stream in exactly that order is consumed successfully.  The
multiproof's values, however, are in *pre-order*, which interleaves each
validator's `withdrawal_credentials` and `exit_epoch` (both sit under the
validator's subtree) and places `validator_count` after all validator fields:
for two Lido validators the built order is
`wc(0), ee(0), wc(1), ee(1), validator_count, balance(0)`.  The claimed order
(`validator_count` first, then all `wc`, then all `ee`, then balances) is not
the pre-order, and the engine errors on the actual pre-order stream whenever a
set bit precedes the last scanned validator. -/
theorem oracle_values_order (wcred : Node) (leafAt : Nat → Node)
    (slot n : Nat) (prior : List Bool) :
    (report_values wcred slot n prior
      ((engineOrder n prior.length (scannedMem wcred leafAt n prior)).map
        (fun g => (g, leafAt g))) =
    .ok (scannedMem wcred leafAt n prior)
      (((iterOnes (scannedMem wcred leafAt n prior)).filter (fun v =>
        decide (u64_from_b256 (leafAt (validator_exit_epoch v)) 0 ≤
          slot / 32))).length)
      ((iterOnes (scannedMem wcred leafAt n prior)).foldl (fun a v =>
        (a + u64_from_b256 (leafAt (validator_balance v)) (v % 4)) % 2 ^ 64)
        0)) ∧
    sortBlex [validator_count, validator_balance 0,
      validator_withdrawal_credentials 0, validator_exit_epoch 0,
      validator_withdrawal_credentials 1, validator_exit_epoch 1] =
      [validator_withdrawal_credentials 0, validator_exit_epoch 0,
       validator_withdrawal_credentials 1, validator_exit_epoch 1,
       validator_count, validator_balance 0] :=
  ⟨report_values_run wcred leafAt slot n prior, by decide⟩

/-- **C2** (counterexample to the original claim).  The pre-order of the
gindex set queued by `Input::build_initial` for a two-validator state with
both membership bits set is *not* `validator_count` first followed by the
`wc` block and the `ee` block: the comparator places `validator_count` after
every validator leaf and interleaves `wc`/`ee` per validator; and the engine,
which does consume `wc(0), wc(1)` first, fails on the actual pre-order stream
with `GIndexMismatch` (expected `wc(1)`, got `ee(0)`). -/
theorem oracle_values_order_counterexample :
    sortBlex [validator_count, validator_balance 0,
      validator_withdrawal_credentials 0, validator_exit_epoch 0,
      validator_withdrawal_credentials 1, validator_exit_epoch 1] ≠
      [validator_count,
       validator_withdrawal_credentials 0, validator_withdrawal_credentials 1,
       validator_exit_epoch 0, validator_exit_epoch 1,
       validator_balance 0] ∧
    report_values [1] 6400 2 []
      ((sortBlex [validator_count, validator_balance 0,
        validator_withdrawal_credentials 0, validator_exit_epoch 0,
        validator_withdrawal_credentials 1, validator_exit_epoch 1]).map
        (fun g => (g, ([1] : Node)))) =
      EngineOut.gErr (.GIndexMismatch (validator_withdrawal_credentials 1)
        (validator_exit_epoch 0)) := by
  constructor
  · decide
  · decide

/-- **C10**.  The continuation's prior-receipt journal check binds only the
membership commitment: it passes whenever the prior receipt's journal bytes
decode to a journal whose `membershipCommitment` equals the hash of the
supplied prior membership bitvector and the receipt verifies under
`self_program_id`; and its outcome is unchanged by replacing the decoded
journal with any other one that has the same `membershipCommitment` —
`blockRoot`, `clBalanceGwei`, `totalDepositedValidators`,
`totalExitedValidators` and `commitment` are never read, and the check takes
neither `prior_state_root` nor `prior_slot` as inputs at all. -/
theorem prior_receipt_check_binds_only_commitment (sha : List Nat → Node)
    (rv : List Nat → Nat → Bool) :
    (∀ (decode : List Nat → Option OJournal) (bytes : List Nat) (pid : Nat)
      (pm : List Bool) (j : OJournal), decode bytes = some j →
      j.membershipCommitment = hash_bitvec sha pm → rv bytes pid = true →
      priorReceiptCheck decode rv sha bytes pid pm = .ok) ∧
    (∀ (decode decode' : List Nat → Option OJournal) (bytes : List Nat)
      (pid : Nat) (pm : List Bool) (j j' : OJournal),
      decode bytes = some j → decode' bytes = some j' →
      j.membershipCommitment = j'.membershipCommitment →
      priorReceiptCheck decode rv sha bytes pid pm =
        priorReceiptCheck decode' rv sha bytes pid pm) := by
  constructor
  · intro decode bytes pid pm j hd hc hv
    unfold priorReceiptCheck
    rw [hd]
    dsimp only
    rw [if_pos hc, hv]
    rfl
  · intro decode decode' bytes pid pm j j' hd hd' hcc
    unfold priorReceiptCheck
    rw [hd, hd']
    dsimp only
    rw [hcc]

/-- **C8** (amended).  The `MissingHistoricalBatch` error belongs to the
*input builder*: `Input::build_continuation` returns it when the range is long
and no `HistoricalBatch` is available.  The engine itself *panics* (`expect`)
when the optional historical-summary multiproof is absent; when it is
supplied, it reads the historical-summary root from the state multiproof at
gindex `historical_summaries(prior_slot)` via `get`, verifies the secondary
multiproof against that root, and panics (`assert_eq!`) unless that proof's
value at gindex `historical_batch.state_roots(prior_slot)` equals
`prior_state_root`. -/
theorem long_range_linkage {α : Type} [DecidableEq α] (H : α → α → α)
    (stateMP histMP : MP α) (ps : Nat) (prior sroot : α)
    (hcap : CAPELLA_FORK_SLOT ≤ ps)
    (hget : stateMP.get (historical_summaries ps) = some sroot)
    (hver : histMP.verify H sroot = VerifyResult.ok) :
    (histMP.get (historical_batch_state_roots ps) = some prior →
      longRangeCheck H stateMP (some histMP) ps prior = LRResult.ok) ∧
    (∀ x, histMP.get (historical_batch_state_roots ps) = some x → x ≠ prior →
      longRangeCheck H stateMP (some histMP) ps prior = LRResult.panicked) ∧
    longRangeCheck H stateMP none ps prior = LRResult.panicked ∧
    (∀ slot : Nat, ps + SLOTS_PER_HISTORICAL_ROOT < slot →
      contTypeSel (β := Unit) slot ps none =
        .error CoreErr.MissingHistoricalBatch) := by
  refine ⟨?_, ?_, rfl, ?_⟩
  · intro hst
    unfold longRangeCheck
    dsimp only
    rw [if_neg (show ¬ps < CAPELLA_FORK_SLOT by omega), hget]
    dsimp only
    rw [hver]
    dsimp only
    rw [hst]
    dsimp only
    rw [if_pos rfl]
  · intro x hx hne
    unfold longRangeCheck
    dsimp only
    rw [if_neg (show ¬ps < CAPELLA_FORK_SLOT by omega), hget]
    dsimp only
    rw [hver]
    dsimp only
    rw [hx]
    dsimp only
    rw [if_neg hne]
  · intro slot hs
    unfold contTypeSel
    rw [if_neg (show ¬slot = ps by omega),
      if_neg (show ¬slot ≤ ps + SLOTS_PER_HISTORICAL_ROOT by omega)]

/-! ### A concrete long-range instance -/

/-- A skinny container holding `tgt` at the end of the given root path, with
`dflt` leaves elsewhere. -/
def pathTree (dflt tgt : Nat) : List Bool → MTree Nat
  | [] => MTree.leaf tgt
  | b :: bs =>
    if b then MTree.node (MTree.leaf dflt) (pathTree dflt tgt bs)
    else MTree.node (pathTree dflt tgt bs) (MTree.leaf dflt)

/-- The root-to-node path bits of a gindex (most significant bit dropped). -/
def gbits (g : Nat) : List Bool :=
  (List.range (size64 g - 1)).reverse.map (fun i => g.testBit i)

/-- A small collision-light hash stand-in for concrete runs. -/
def hashC (a b : Nat) : Nat := (2 * a + 3 * b + 1) % 1000003

def histTc : MTree Nat := pathTree 0 777 (gbits (historical_batch_state_roots CAPELLA_FORK_SLOT))

def histMPc : MP Nat :=
  (buildMultiproof hashC 0 histTc
    [historical_batch_state_roots CAPELLA_FORK_SLOT]).getD ⟨[], [], [], 0⟩

def hrootc : Nat := histTc.rootHash hashC

def stateTc : MTree Nat :=
  pathTree 0 hrootc (gbits (historical_summaries CAPELLA_FORK_SLOT))

def stateMPc : MP Nat :=
  (buildMultiproof hashC 0 stateTc
    [historical_summaries CAPELLA_FORK_SLOT]).getD ⟨[], [], [], 0⟩

/-- **C8** witness: the amended linkage at a concrete long-range instance
(`prior_slot` at the Capella fork, prior state root `777` stored in the
historical batch). -/
theorem long_range_linkage_witness :
    longRangeCheck hashC stateMPc (some histMPc) CAPELLA_FORK_SLOT 777 =
      LRResult.ok ∧
    longRangeCheck hashC stateMPc none CAPELLA_FORK_SLOT 777 =
      LRResult.panicked := by
  have h := long_range_linkage hashC stateMPc histMPc CAPELLA_FORK_SLOT 777
    hrootc (by decide) (by decide) (by decide)
  exact ⟨h.1 (by decide), h.2.2.1⟩

/-- **C8** (counterexample to the original claim).  With no historical-summary
multiproof supplied, the engine's long-range arm panics; it is the input
builder's continuation-type selection that produces
`Error::MissingHistoricalBatch`. -/
theorem long_range_missing_batch_counterexample :
    longRangeCheck hashC (⟨[], [], [], 0⟩ : MP Nat) none CAPELLA_FORK_SLOT 0 =
      LRResult.panicked ∧
    contTypeSel (β := Unit) (CAPELLA_FORK_SLOT + 8193) CAPELLA_FORK_SLOT none =
      .error CoreErr.MissingHistoricalBatch := by
  decide

end LidoOracle
